import Mathlib

/-!
Verification of the data correlation and structuring engine of the
standup-helper repository (`src/services/data_preprocessor.py` and
`src/services/data_aggregator.py`).

Texts are modelled as `List Char` (ASCII fragment of Python `str`).
Python's `re` scanning for the two concrete ticket patterns, the
clock-duration pattern and the timestamp pattern is embedded as explicit
left-to-right scanners with the exact greedy/backtracking behaviour those
patterns have; `str.upper`/`str.lower`/`str.strip` and `x in y` are
embedded character-wise for ASCII.
-/

namespace Standup

abbrev Str := List Char

/-- ASCII whitespace stripped by Python `str.strip()`. -/
def isPySpace (c : Char) : Bool :=
  c == ' ' || c == '\t' || c == '\n' || c == '\r' || c == '\x0b' || c == '\x0c'

def isAsciiUpperCh (c : Char) : Bool := decide ('A' ≤ c ∧ c ≤ 'Z')

def isAsciiLowerCh (c : Char) : Bool := decide ('a' ≤ c ∧ c ≤ 'z')

/-- The character class `[A-Z]` under `re.IGNORECASE`. -/
def isAsciiLetterCh (c : Char) : Bool := isAsciiUpperCh c || isAsciiLowerCh c

/-- The character class `\d` (ASCII). -/
def isDigitCh (c : Char) : Bool := decide ('0' ≤ c ∧ c ≤ '9')

/-- The character class `\w` used by `\b` word boundaries (ASCII). -/
def wordCh (c : Char) : Bool := isAsciiLetterCh c || isDigitCh c || c == '_'

/-- The 26 lower/upper ASCII letter pairs; used to embed `str.upper()` and
`str.lower()` on the ASCII fragment. -/
def caseTable : List (Char × Char) :=
  [('a', 'A'), ('b', 'B'), ('c', 'C'), ('d', 'D'), ('e', 'E'), ('f', 'F'),
   ('g', 'G'), ('h', 'H'), ('i', 'I'), ('j', 'J'), ('k', 'K'), ('l', 'L'),
   ('m', 'M'), ('n', 'N'), ('o', 'O'), ('p', 'P'), ('q', 'Q'), ('r', 'R'),
   ('s', 'S'), ('t', 'T'), ('u', 'U'), ('v', 'V'), ('w', 'W'), ('x', 'X'),
   ('y', 'Y'), ('z', 'Z')]

/-- `str.upper()` on one character (ASCII). -/
def asciiUpper (c : Char) : Char :=
  match caseTable.find? (fun p => p.1 == c) with
  | some p => p.2
  | none => c

/-- `str.lower()` on one character (ASCII). -/
def asciiLower (c : Char) : Char :=
  match caseTable.find? (fun p => p.2 == c) with
  | some p => p.1
  | none => c

def trimLeft (l : Str) : Str := l.dropWhile isPySpace

def trimRight (l : Str) : Str := (l.reverse.dropWhile isPySpace).reverse

/-- Python `str.strip()` (ASCII fragment). -/
def pyStrip (l : Str) : Str := trimRight (trimLeft l)

/-- Python `needle in hay` substring test. -/
def containsSub (needle : Str) (hay : Str) : Bool :=
  match hay with
  | [] => needle.isEmpty
  | c :: t => needle.isPrefixOf (c :: t) || containsSub needle t

/-- Python `text.split('\n')`. -/
def splitNl : Str → List Str
  | [] => [[]]
  | c :: rest =>
    if c = '\n' then [] :: splitNl rest
    else
      match splitNl rest with
      | [] => [[c]]
      | l :: ls => (c :: l) :: ls

/-- Python `'\n'.join(lines)`. -/
def joinNl : List Str → Str
  | [] => []
  | [l] => l
  | l :: r :: rs => l ++ '\n' :: joinNl (r :: rs)

/-- The normalisation `line.strip().lower()` used by `deduplicate_content`. -/
def normalizeLine (l : Str) : Str := (pyStrip l).map asciiLower

/-- The loop of `DataPreprocessor.deduplicate_content`: keep a line iff its
normalised form is non-empty and not yet in `seen`. -/
def dedupAux (seen : List Str) : List Str → List Str
  | [] => []
  | l :: rest =>
    let n := normalizeLine l
    if n ≠ [] ∧ n ∉ seen then l :: dedupAux (n :: seen) rest
    else dedupAux seen rest

/-- `DataPreprocessor.deduplicate_content`. -/
def deduplicateContent (text : Str) : Str := joinNl (dedupAux [] (splitNl text))

/-! ### Basic lemmas about the string primitives -/

theorem splitNl_ne_nil (t : Str) : splitNl t ≠ [] := by
  match t with
  | [] => simp [splitNl]
  | c :: rest =>
    rw [splitNl]
    by_cases h : c = '\n'
    · simp [h]
    · simp only [if_neg h]
      match hs : splitNl rest with
      | [] => simp
      | l :: ls => simp

theorem mem_splitNl_no_newline (t : Str) : ∀ l ∈ splitNl t, '\n' ∉ l := by
  induction t with
  | nil => intro l hl; simp [splitNl] at hl; simp [hl]
  | cons c rest ih =>
    intro l hl
    rw [splitNl] at hl
    by_cases h : c = '\n'
    · simp only [if_pos h] at hl
      rcases List.mem_cons.mp hl with hl | hl
      · simp [hl]
      · exact ih l hl
    · simp only [if_neg h] at hl
      rcases hs : splitNl rest with _ | ⟨l0, ls⟩
      · exact absurd hs (splitNl_ne_nil rest)
      · rw [hs] at hl
        rcases List.mem_cons.mp hl with hl | hl
        · subst hl
          intro hmem
          rcases List.mem_cons.mp hmem with h1 | h1
          · exact h h1.symm
          · exact ih l0 (by rw [hs]; exact List.mem_cons_self _ _) h1
        · exact ih l (by rw [hs]; exact List.mem_cons_of_mem _ hl)

theorem splitNl_no_newline (l : Str) (h : '\n' ∉ l) : splitNl l = [l] := by
  induction l with
  | nil => simp [splitNl]
  | cons c rest ih =>
    have hc : c ≠ '\n' := fun hc => h (hc ▸ List.mem_cons_self _ _)
    have hr : '\n' ∉ rest := fun hr => h (List.mem_cons_of_mem _ hr)
    rw [splitNl, if_neg hc, ih hr]

theorem splitNl_append_newline (l t : Str) (h : '\n' ∉ l) :
    splitNl (l ++ '\n' :: t) = l :: splitNl t := by
  induction l with
  | nil => simp [splitNl]
  | cons c rest ih =>
    have hc : c ≠ '\n' := fun hc => h (hc ▸ List.mem_cons_self _ _)
    have hr : '\n' ∉ rest := fun hr => h (List.mem_cons_of_mem _ hr)
    rw [List.cons_append, splitNl, if_neg hc, ih hr]

theorem splitNl_joinNl (ls : List Str) (hne : ls ≠ [])
    (h : ∀ l ∈ ls, '\n' ∉ l) : splitNl (joinNl ls) = ls := by
  induction ls with
  | nil => exact absurd rfl hne
  | cons l rest ih =>
    rcases rest with _ | ⟨r, rs⟩
    · exact splitNl_no_newline l (h l (List.mem_cons_self _ _))
    · rw [joinNl, splitNl_append_newline l _ (h l (List.mem_cons_self _ _))]
      rw [ih (List.cons_ne_nil r rs) (fun x hx => h x (List.mem_cons_of_mem _ hx))]

theorem dedupAux_sublist (seen : List Str) (ls : List Str) :
    (dedupAux seen ls).Sublist ls := by
  induction ls generalizing seen with
  | nil => simp [dedupAux]
  | cons l rest ih =>
    rw [dedupAux]
    by_cases h : normalizeLine l ≠ [] ∧ normalizeLine l ∉ seen
    · simp only [if_pos h]
      exact List.Sublist.cons₂ l (ih _)
    · simp only [if_neg h]
      exact List.Sublist.cons l (ih _)

theorem dedupAux_norm (seen : List Str) (ls : List Str) :
    ∀ l ∈ dedupAux seen ls, normalizeLine l ≠ [] ∧ normalizeLine l ∉ seen := by
  induction ls generalizing seen with
  | nil => simp [dedupAux]
  | cons l rest ih =>
    intro x hx
    rw [dedupAux] at hx
    by_cases h : normalizeLine l ≠ [] ∧ normalizeLine l ∉ seen
    · simp only [if_pos h] at hx
      rcases List.mem_cons.mp hx with hx | hx
      · subst hx; exact h
      · have := ih (normalizeLine l :: seen) x hx
        exact ⟨this.1, fun hm => this.2 (List.mem_cons_of_mem _ hm)⟩
    · simp only [if_neg h] at hx
      exact ih seen x hx

theorem dedupAux_map_nodup (seen : List Str) (ls : List Str) :
    ((dedupAux seen ls).map normalizeLine).Nodup := by
  induction ls generalizing seen with
  | nil => simp [dedupAux]
  | cons l rest ih =>
    rw [dedupAux]
    by_cases h : normalizeLine l ≠ [] ∧ normalizeLine l ∉ seen
    · simp only [if_pos h, List.map_cons, List.nodup_cons]
      refine ⟨?_, ih _⟩
      intro hmem
      rcases List.mem_map.mp hmem with ⟨x, hx, hnx⟩
      have := (dedupAux_norm _ _ x hx).2
      exact this (hnx ▸ List.mem_cons_self _ _)
    · simp only [if_neg h]
      exact ih seen

theorem dedupAux_id (seen : List Str) (ls : List Str)
    (h : ∀ l ∈ ls, normalizeLine l ≠ [] ∧ normalizeLine l ∉ seen)
    (hnd : (ls.map normalizeLine).Nodup) : dedupAux seen ls = ls := by
  induction ls generalizing seen with
  | nil => simp [dedupAux]
  | cons l rest ih =>
    rw [dedupAux, if_pos (h l (List.mem_cons_self _ _))]
    congr 1
    apply ih
    · intro x hx
      refine ⟨(h x (List.mem_cons_of_mem _ hx)).1, ?_⟩
      intro hmem
      rcases List.mem_cons.mp hmem with hm | hm
      · rcases List.map_cons normalizeLine l rest ▸ hnd with hnd'
        exact (List.nodup_cons.mp hnd').1 (hm ▸ List.mem_map_of_mem normalizeLine hx)
      · exact (h x (List.mem_cons_of_mem _ hx)).2 hm
    · exact (List.nodup_cons.mp (List.map_cons normalizeLine l rest ▸ hnd)).2

/-- Amended characterisation of `deduplicate_content`: a line is kept iff its
normalised (trimmed, lowercased) key is non-empty and does not occur among the
normalised keys of the earlier lines; lines with an empty normalised key are
dropped entirely. -/
def keepFirstLines (prior : List Str) : List Str → List Str
  | [] => []
  | l :: rest =>
    if normalizeLine l ≠ [] ∧ normalizeLine l ∉ prior.map normalizeLine
    then l :: keepFirstLines (prior ++ [l]) rest
    else keepFirstLines (prior ++ [l]) rest

theorem dedupAux_eq_keepFirstLines (ls : List Str) :
    ∀ (seen : List Str) (prior : List Str),
      (∀ s, s ∈ seen ↔ (s ∈ prior.map normalizeLine ∧ s ≠ [])) →
      dedupAux seen ls = keepFirstLines prior ls := by
  induction ls with
  | nil => intro seen prior _; simp [dedupAux, keepFirstLines]
  | cons l rest ih =>
    intro seen prior hinv
    rw [dedupAux, keepFirstLines]
    by_cases hn : normalizeLine l = []
    · rw [if_neg (by simp [hn]), if_neg (by simp [hn])]
      apply ih
      intro s
      rw [hinv s]
      simp only [List.map_append, List.map_cons, List.map_nil, List.mem_append]
      constructor
      · rintro ⟨hs, hne⟩; exact ⟨Or.inl hs, hne⟩
      · rintro ⟨hs | hs, hne⟩
        · exact ⟨hs, hne⟩
        · exact absurd ((List.mem_singleton.mp hs).trans hn) hne
    · have hcond : (normalizeLine l ≠ [] ∧ normalizeLine l ∉ seen) ↔
          (normalizeLine l ≠ [] ∧ normalizeLine l ∉ prior.map normalizeLine) := by
        constructor
        · rintro ⟨h1, h2⟩
          exact ⟨h1, fun hm => h2 ((hinv _).mpr ⟨hm, h1⟩)⟩
        · rintro ⟨h1, h2⟩
          exact ⟨h1, fun hm => h2 ((hinv _).mp hm).1⟩
      by_cases hk : normalizeLine l ≠ [] ∧ normalizeLine l ∉ seen
      · rw [if_pos hk, if_pos (hcond.mp hk)]
        congr 1
        apply ih
        intro s
        simp only [List.mem_cons, List.map_append, List.map_cons, List.map_nil,
          List.mem_append, hinv s]
        constructor
        · rintro (hs | ⟨hs, hne⟩)
          · subst hs; exact ⟨Or.inr (Or.inl rfl), hn⟩
          · exact ⟨Or.inl hs, hne⟩
        · rintro ⟨hs | hs, hne⟩
          · exact Or.inr ⟨hs, hne⟩
          · rcases hs with hs | hs
            · exact Or.inl hs
            · exact absurd hs (List.not_mem_nil s)
      · rw [if_neg hk, if_neg (fun hc => hk (hcond.mpr hc))]
        apply ih
        intro s
        simp only [List.map_append, List.map_cons, List.map_nil, List.mem_append, hinv s]
        have hmem : normalizeLine l ∈ seen := by
          rcases not_and_or.mp hk with h | h
          · exact absurd hn (by simpa using h)
          · simpa using h
        constructor
        · rintro ⟨hs, hne⟩; exact ⟨Or.inl hs, hne⟩
        · rintro ⟨hs | hs, hne⟩
          · exact ⟨hs, hne⟩
          · have := List.mem_singleton.mp hs
            subst this
            exact ⟨((hinv _).mp hmem).1, hne⟩

/-- **C5** (amended): `deduplicate_content` splits on newlines, keeps each
line's first occurrence judged by its trimmed-and-lowercased key, drops later
lines whose key repeats, preserves the original text of kept lines and their
relative order, and drops every line whose normalised key is empty: no blank
line survives. -/
theorem C5_deduplicate_first_occurrences (x : Str) :
    deduplicateContent x = joinNl (keepFirstLines [] (splitNl x)) := by
  rw [deduplicateContent, dedupAux_eq_keepFirstLines (splitNl x) [] [] (by simp)]

/-- **C5** counterexample to the claim as stated: in `"a\n\nb"` the blank line
sits between two kept lines, yet the output is `"a\nb"`: it contains no blank
line at all, so the first blank line does not survive. -/
theorem C5_counterexample :
    deduplicateContent (String.toList "a\n\nb") = String.toList "a\nb" ∧
      [] ∉ splitNl (deduplicateContent (String.toList "a\n\nb")) := by decide

/-- **C6**: `deduplicate_content` is idempotent: applying it twice gives the
same result as applying it once, for every input string. -/
theorem C6_deduplicate_idempotent (x : Str) :
    deduplicateContent (deduplicateContent x) = deduplicateContent x := by
  show joinNl (dedupAux [] (splitNl (joinNl (dedupAux [] (splitNl x))))) =
    joinNl (dedupAux [] (splitNl x))
  rcases ho : dedupAux [] (splitNl x) with _ | ⟨l, ls⟩
  · rfl
  · have hsub := dedupAux_sublist [] (splitNl x)
    rw [ho] at hsub
    have hnn : ∀ y ∈ l :: ls, '\n' ∉ y :=
      fun y hy => mem_splitNl_no_newline x y (hsub.subset hy)
    rw [splitNl_joinNl _ (List.cons_ne_nil _ _) hnn]
    rw [dedupAux_id [] _ ?_ ?_]
    · intro y hy
      exact dedupAux_norm [] (splitNl x) y (ho ▸ hy)
    · have := dedupAux_map_nodup [] (splitNl x)
      rwa [ho] at this

/-! ### The two ticket patterns of `DataPreprocessor.TICKET_PATTERNS`

`re.findall` scans left to right; at each position it attempts a match, and on
success emits the capture and resumes after it.  For the two concrete patterns
a match attempt at a position succeeds exactly as `matchP1`/`matchP2` below
describe (the greedy `[A-Z]{2,}`/`\d+` pieces cannot backtrack into a
different split because the follow-up character classes are disjoint).  The
scanner carries one bit `pw`: whether the previous character is a word
character, which decides the leading `\b`; both patterns end in `\d`, so the
trailing `\b` holds iff the next character is not a word character. -/

/-- Trailing `\b` after a `\d`: the remaining text must not start with a word
character. -/
def trailOk : Str → Bool
  | [] => true
  | c :: _ => !wordCh c

/-- A match attempt of `\b([A-Z]{2,}-\d+)\b` (IGNORECASE) at the current
position; `pw` says whether the previous character is a word character. -/
def matchP1 (pw : Bool) (xs : Str) : Option (Str × Str) :=
  if pw then none
  else
    let ls := xs.takeWhile isAsciiLetterCh
    let r1 := xs.dropWhile isAsciiLetterCh
    if r1.head? = some '-' ∧ 2 ≤ ls.length then
      let r2 := r1.tail
      let ds := r2.takeWhile isDigitCh
      let r3 := r2.dropWhile isDigitCh
      if 1 ≤ ds.length ∧ trailOk r3 = true
      then some (ls ++ '-' :: ds, r3)
      else none
    else none

/-- A match attempt of `\b([A-Z]+\d+)\b` (IGNORECASE) at the current
position. -/
def matchP2 (pw : Bool) (xs : Str) : Option (Str × Str) :=
  if pw then none
  else
    let ls := xs.takeWhile isAsciiLetterCh
    let r1 := xs.dropWhile isAsciiLetterCh
    let ds := r1.takeWhile isDigitCh
    let r2 := r1.dropWhile isDigitCh
    if 1 ≤ ls.length ∧ 1 ≤ ds.length ∧ trailOk r2 = true
    then some (ls ++ ds, r2)
    else none

/-- Shape of every capture of the first pattern. -/
def shapedP1 (m : Str) : Prop :=
  ∃ ls ds, m = ls ++ '-' :: ds ∧ 2 ≤ ls.length ∧
    (∀ c ∈ ls, isAsciiLetterCh c = true) ∧ 1 ≤ ds.length ∧
    (∀ c ∈ ds, isDigitCh c = true)

/-- Shape of every capture of the second pattern. -/
def shapedP2 (m : Str) : Prop :=
  ∃ ls ds, m = ls ++ ds ∧ 1 ≤ ls.length ∧
    (∀ c ∈ ls, isAsciiLetterCh c = true) ∧ 1 ≤ ds.length ∧
    (∀ c ∈ ds, isDigitCh c = true)

theorem matchP1_some_spec {pw : Bool} {xs m r : Str}
    (h : matchP1 pw xs = some (m, r)) :
    pw = false ∧ xs = m ++ r ∧ shapedP1 m ∧ trailOk r = true := by
  rw [matchP1] at h
  by_cases hpw : pw
  · rw [if_pos hpw] at h; exact absurd h (by simp)
  · rw [if_neg hpw] at h
    simp only [] at h
    rcases hh : (xs.dropWhile isAsciiLetterCh).head? with _ | c
    · rw [if_neg (by simp [hh])] at h; exact absurd h (by simp)
    · by_cases hc : c = '-'
      · subst hc
        by_cases hl : 2 ≤ (xs.takeWhile isAsciiLetterCh).length
        · rw [if_pos ⟨hh, hl⟩] at h
          by_cases hd : 1 ≤ ((xs.dropWhile isAsciiLetterCh).tail.takeWhile isDigitCh).length ∧
              trailOk ((xs.dropWhile isAsciiLetterCh).tail.dropWhile isDigitCh) = true
          · rw [if_pos hd] at h
            have hm : m = xs.takeWhile isAsciiLetterCh ++
                '-' :: (xs.dropWhile isAsciiLetterCh).tail.takeWhile isDigitCh ∧
                r = (xs.dropWhile isAsciiLetterCh).tail.dropWhile isDigitCh := by
              have := Option.some.inj h
              exact ⟨congrArg Prod.fst this |>.symm, congrArg Prod.snd this |>.symm⟩
            have hdrop : xs.dropWhile isAsciiLetterCh =
                '-' :: (xs.dropWhile isAsciiLetterCh).tail := by
              rcases hg : xs.dropWhile isAsciiLetterCh with _ | ⟨d, t⟩
              · rw [hg] at hh; exact absurd hh (by simp)
              · rw [hg] at hh; simp at hh; simp [hh]
            refine ⟨by simp [hpw], ?_, ?_, ?_⟩
            · rw [hm.1, hm.2]
              conv_lhs => rw [← List.takeWhile_append_dropWhile isAsciiLetterCh xs]
              rw [List.append_assoc]
              congr 1
              rw [hdrop]
              simp only [List.cons_append]
              congr 1
              exact (List.takeWhile_append_dropWhile isDigitCh _).symm
            · exact ⟨_, _, hm.1, hl, fun c hcm => List.mem_takeWhile_imp hcm, hd.1,
                fun c hcm => List.mem_takeWhile_imp hcm⟩
            · rw [hm.2]; exact hd.2
          · rw [if_neg hd] at h; exact absurd h (by simp)
        · rw [if_neg (by rintro ⟨_, h2⟩; exact hl h2)] at h; exact absurd h (by simp)
      · rw [if_neg (by rintro ⟨h1, _⟩; rw [hh] at h1; exact hc (Option.some.inj h1))] at h
        exact absurd h (by simp)

theorem matchP2_some_spec {pw : Bool} {xs m r : Str}
    (h : matchP2 pw xs = some (m, r)) :
    pw = false ∧ xs = m ++ r ∧ shapedP2 m ∧ trailOk r = true := by
  rw [matchP2] at h
  by_cases hpw : pw
  · rw [if_pos hpw] at h; exact absurd h (by simp)
  · rw [if_neg hpw] at h
    simp only [] at h
    by_cases hcond : 1 ≤ (xs.takeWhile isAsciiLetterCh).length ∧
        1 ≤ ((xs.dropWhile isAsciiLetterCh).takeWhile isDigitCh).length ∧
        trailOk ((xs.dropWhile isAsciiLetterCh).dropWhile isDigitCh) = true
    · rw [if_pos hcond] at h
      have hm : m = xs.takeWhile isAsciiLetterCh ++
          (xs.dropWhile isAsciiLetterCh).takeWhile isDigitCh ∧
          r = (xs.dropWhile isAsciiLetterCh).dropWhile isDigitCh := by
        have := Option.some.inj h
        exact ⟨congrArg Prod.fst this |>.symm, congrArg Prod.snd this |>.symm⟩
      refine ⟨by simp [hpw], ?_, ?_, ?_⟩
      · rw [hm.1, hm.2]
        conv_lhs => rw [← List.takeWhile_append_dropWhile isAsciiLetterCh xs]
        rw [List.append_assoc]
        congr 1
        exact (List.takeWhile_append_dropWhile isDigitCh _).symm
      · exact ⟨_, _, hm.1, hcond.1, fun c hcm => List.mem_takeWhile_imp hcm, hcond.2.1,
          fun c hcm => List.mem_takeWhile_imp hcm⟩
      · rw [hm.2]; exact hcond.2.2
    · rw [if_neg hcond] at h; exact absurd h (by simp)

theorem shapedP1_ne_nil {m : Str} (h : shapedP1 m) : m ≠ [] := by
  rcases h with ⟨ls, ds, rfl, _, _, _, _⟩
  simp

theorem shapedP2_ne_nil {m : Str} (h : shapedP2 m) : m ≠ [] := by
  rcases h with ⟨ls, ds, rfl, hl, _, hd, _⟩
  rcases ls with _ | ⟨c, t⟩
  · simp at hl
  · simp

theorem matchP1_some_length {pw : Bool} {xs m r : Str}
    (h : matchP1 pw xs = some (m, r)) : r.length < xs.length := by
  rcases matchP1_some_spec h with ⟨_, hxs, hsh, _⟩
  rw [hxs, List.length_append]
  have : 0 < m.length := List.length_pos.mpr (shapedP1_ne_nil hsh)
  omega

theorem matchP2_some_length {pw : Bool} {xs m r : Str}
    (h : matchP2 pw xs = some (m, r)) : r.length < xs.length := by
  rcases matchP2_some_spec h with ⟨_, hxs, hsh, _⟩
  rw [hxs, List.length_append]
  have : 0 < m.length := List.length_pos.mpr (shapedP2_ne_nil hsh)
  omega

/-- The left-to-right scan of `re.findall` for the first pattern.  The `fuel`
argument only drives structural recursion; every step consumes at least one
character, so `fuel = length` never runs out
(`findAllP1F_fuel_irrelevant`). -/
def findAllP1F : Nat → Bool → Str → List Str
  | 0, _, _ => []
  | fu + 1, pw, xs =>
    match xs with
    | [] => []
    | c :: rest =>
      match matchP1 pw (c :: rest) with
      | some (m, r) => m :: findAllP1F fu true r
      | none => findAllP1F fu (wordCh c) rest

def findAllP1 (pw : Bool) (xs : Str) : List Str := findAllP1F xs.length pw xs

/-- The left-to-right scan of `re.findall` for the second pattern. -/
def findAllP2F : Nat → Bool → Str → List Str
  | 0, _, _ => []
  | fu + 1, pw, xs =>
    match xs with
    | [] => []
    | c :: rest =>
      match matchP2 pw (c :: rest) with
      | some (m, r) => m :: findAllP2F fu true r
      | none => findAllP2F fu (wordCh c) rest

def findAllP2 (pw : Bool) (xs : Str) : List Str := findAllP2F xs.length pw xs

theorem findAllP1F_fuel_irrelevant :
    ∀ (fuel : Nat) (pw : Bool) (xs : Str), xs.length ≤ fuel →
      findAllP1F fuel pw xs = findAllP1 pw xs := by
  intro fuel
  induction fuel using Nat.strong_induction_on with
  | _ fuel ih =>
    intro pw xs hlen
    rcases fuel with _ | fu
    · have hx : xs = [] := List.eq_nil_of_length_eq_zero (Nat.le_zero.mp hlen)
      subst hx
      rfl
    · rcases xs with _ | ⟨c, rest⟩
      · rfl
      · simp only [List.length_cons] at hlen
        rw [findAllP1]
        simp only [List.length_cons]
        rw [findAllP1F, findAllP1F]
        cases hm : matchP1 pw (c :: rest) with
        | none =>
          dsimp only
          rw [ih fu (by omega) (wordCh c) rest (by omega),
            ih rest.length (by omega) (wordCh c) rest le_rfl]
        | some mr =>
          obtain ⟨m, r⟩ := mr
          have hr : r.length ≤ rest.length := by
            have := matchP1_some_length hm
            simp only [List.length_cons] at this
            omega
          dsimp only
          rw [ih fu (by omega) true r (by omega),
            ih rest.length (by omega) true r hr]

theorem findAllP2F_fuel_irrelevant :
    ∀ (fuel : Nat) (pw : Bool) (xs : Str), xs.length ≤ fuel →
      findAllP2F fuel pw xs = findAllP2 pw xs := by
  intro fuel
  induction fuel using Nat.strong_induction_on with
  | _ fuel ih =>
    intro pw xs hlen
    rcases fuel with _ | fu
    · have hx : xs = [] := List.eq_nil_of_length_eq_zero (Nat.le_zero.mp hlen)
      subst hx
      rfl
    · rcases xs with _ | ⟨c, rest⟩
      · rfl
      · simp only [List.length_cons] at hlen
        rw [findAllP2]
        simp only [List.length_cons]
        rw [findAllP2F, findAllP2F]
        cases hm : matchP2 pw (c :: rest) with
        | none =>
          dsimp only
          rw [ih fu (by omega) (wordCh c) rest (by omega),
            ih rest.length (by omega) (wordCh c) rest le_rfl]
        | some mr =>
          obtain ⟨m, r⟩ := mr
          have hr : r.length ≤ rest.length := by
            have := matchP2_some_length hm
            simp only [List.length_cons] at this
            omega
          dsimp only
          rw [ih fu (by omega) true r (by omega),
            ih rest.length (by omega) true r hr]

/-- Python `set` insertion modelled on lists: membership-faithful, keeps
first-insertion order. -/
def insertUnique (acc : List Str) (x : Str) : List Str :=
  if x ∈ acc then acc else acc ++ [x]

/-- `DataPreprocessor.extract_ticket_ids`: union of the uppercased captures of
both patterns, as a duplicate-free collection. -/
def extractTicketIds (text : Str) : List Str :=
  (((findAllP1 false text).map (List.map asciiUpper)) ++
    ((findAllP2 false text).map (List.map asciiUpper))).foldl insertUnique []

/-! ### Character-class facts -/

theorem wordCh_of_letter {c : Char} (h : isAsciiLetterCh c = true) : wordCh c = true := by
  simp [wordCh, h]

theorem wordCh_of_digit {c : Char} (h : isDigitCh c = true) : wordCh c = true := by
  simp [wordCh, h]

theorem not_digit_of_letter {c : Char} (h : isAsciiLetterCh c = true) :
    isDigitCh c = false := by
  simp only [isAsciiLetterCh, isAsciiUpperCh, isAsciiLowerCh, Bool.or_eq_true,
    decide_eq_true_eq] at h
  simp only [isDigitCh, decide_eq_false_iff_not]
  rintro ⟨h0, h9⟩
  rcases h with ⟨hA, _⟩ | ⟨ha, _⟩
  · exact absurd (le_trans hA h9) (by decide)
  · exact absurd (le_trans ha h9) (by decide)

theorem not_hyphen_of_letter {c : Char} (h : isAsciiLetterCh c = true) : c ≠ '-' := by
  rintro rfl
  exact absurd h (by decide)

theorem not_hyphen_of_digit {c : Char} (h : isDigitCh c = true) : c ≠ '-' := by
  rintro rfl
  exact absurd h (by decide)

theorem not_digit_of_not_word {c : Char} (h : wordCh c = false) : isDigitCh c = false := by
  cases hd : isDigitCh c
  · rfl
  · exact absurd (wordCh_of_digit hd) (by simp [h])

theorem not_letter_of_digit {c : Char} (h : isDigitCh c = true) :
    isAsciiLetterCh c = false := by
  cases hl : isAsciiLetterCh c
  · rfl
  · exact absurd h (by simp [not_digit_of_letter hl])

theorem trailOk_head {b : Str} (hb : trailOk b = true) :
    ∀ c, b.head? = some c → wordCh c = false := by
  intro c hc
  rcases b with _ | ⟨d, b'⟩
  · simp at hc
  · simp only [List.head?_cons, Option.some.injEq] at hc
    subst hc
    simpa [trailOk] using hb

/-- Splitting `takeWhile`/`dropWhile` over an append whose left part satisfies
the predicate and whose right part starts with a failing character. -/
theorem takeWhile_split (p : Char → Bool) (l t : Str)
    (hall : ∀ c ∈ l, p c = true) (hhd : ∀ c, t.head? = some c → p c = false) :
    (l ++ t).takeWhile p = l ∧ (l ++ t).dropWhile p = t := by
  induction l with
  | nil =>
    simp only [List.nil_append]
    rcases t with _ | ⟨c, t'⟩
    · simp
    · have := hhd c rfl
      simp [List.takeWhile, List.dropWhile, this]
  | cons c l' ih =>
    have hc := hall c (List.mem_cons_self _ _)
    have h2 := ih (fun x hx => hall x (List.mem_cons_of_mem _ hx))
    constructor
    · rw [List.cons_append, List.takeWhile_cons, hc]
      simp only [if_true, h2.1]
    · rw [List.cons_append, List.dropWhile_cons, hc]
      simp only [if_true, h2.2]

/-- A list with a single distinguished separator decomposes uniquely around
it, provided the separator occurs in neither piece of one decomposition. -/
theorem sep_unique {x : Char} {l1 r1 l2 r2 : Str}
    (h : l1 ++ x :: r1 = l2 ++ x :: r2) (hl2 : x ∉ l2) (hr2 : x ∉ r2) :
    l1 = l2 ∧ r1 = r2 := by
  induction l2 generalizing l1 with
  | nil =>
    rcases l1 with _ | ⟨y, l1'⟩
    · simp only [List.nil_append, List.cons.injEq] at h
      exact ⟨rfl, h.2⟩
    · simp only [List.nil_append, List.cons_append, List.cons.injEq] at h
      refine absurd ?_ hr2
      rw [← h.2]
      exact List.mem_append_right _ (List.mem_cons_self _ _)
  | cons z l2' ih =>
    rcases l1 with _ | ⟨y, l1'⟩
    · simp only [List.nil_append, List.cons_append, List.cons.injEq] at h
      refine absurd ?_ hl2
      rw [h.1]
      exact List.mem_cons_self _ _
    · simp only [List.cons_append, List.cons.injEq] at h
      have := ih h.2 (fun hm => hl2 (List.mem_cons_of_mem _ hm))
      exact ⟨by rw [h.1, this.1], this.2⟩

theorem matchP1_complete {tok b : Str} (hsh : shapedP1 tok) (hb : trailOk b = true) :
    matchP1 false (tok ++ b) = some (tok, b) := by
  rcases hsh with ⟨ls, ds, rfl, hl2, hlet, hd1, hdig⟩
  have hsplit1 := takeWhile_split isAsciiLetterCh ls ('-' :: (ds ++ b)) hlet
    (fun c hc => by simp only [List.head?_cons, Option.some.injEq] at hc; subst hc; decide)
  have hbd : ∀ c, b.head? = some c → isDigitCh c = false :=
    fun c hc => not_digit_of_not_word (trailOk_head hb c hc)
  have hsplit2 := takeWhile_split isDigitCh ds b hdig hbd
  rw [matchP1, if_neg (by simp)]
  simp only [List.append_assoc, List.cons_append] at hsplit1 ⊢
  rw [hsplit1.1, hsplit1.2]
  simp only [List.tail_cons, List.head?_cons]
  rw [if_pos ⟨trivial, hl2⟩, hsplit2.1, hsplit2.2, if_pos ⟨hd1, hb⟩]

theorem matchP2_complete {tok b : Str} (hsh : shapedP2 tok) (hb : trailOk b = true) :
    matchP2 false (tok ++ b) = some (tok, b) := by
  rcases hsh with ⟨ls, ds, rfl, hl1, hlet, hd1, hdig⟩
  have hds : ds ≠ [] := by intro h; rw [h] at hd1; simp at hd1
  have hsplit1 := takeWhile_split isAsciiLetterCh ls (ds ++ b) hlet
    (fun c hc => by
      rcases ds with _ | ⟨d, ds'⟩
      · exact absurd rfl hds
      · rw [List.cons_append, List.head?_cons] at hc
        have hdc : d = c := Option.some.inj hc
        subst hdc
        exact not_letter_of_digit (hdig d (List.mem_cons_self _ _)))
  have hbd : ∀ c, b.head? = some c → isDigitCh c = false :=
    fun c hc => not_digit_of_not_word (trailOk_head hb c hc)
  have hsplit2 := takeWhile_split isDigitCh ds b hdig hbd
  rw [matchP2, if_neg (by simp)]
  simp only [List.append_assoc] at hsplit1 ⊢
  rw [hsplit1.1, hsplit1.2, hsplit2.1, hsplit2.2, if_pos ⟨hl1, hd1, hb⟩]

/-- A successful match attempt made strictly before a whole-word-delimited
occurrence of a pattern-1-shaped token stays strictly inside the prefix `a`:
matches consist of word characters plus one hyphen, so they can neither cross
the non-word character that ends `a` nor stop right at the token (the trailing
`\b` would fail). -/
theorem matchP1_step {a tok b : Str} {pw : Bool} {m r : Str}
    (ha : a ≠ []) (hlast : ∀ x, a.getLast? = some x → wordCh x = false)
    (hsh : shapedP1 tok)
    (h : matchP1 pw (a ++ (tok ++ b)) = some (m, r)) :
    ∃ a2, a = m ++ a2 ∧ a2 ≠ [] ∧ r = a2 ++ (tok ++ b) := by
  obtain ⟨-, heq, hshm, htr⟩ := matchP1_some_spec h
  obtain ⟨lst, dst, htok, hl2t, hlett, hd1t, hdigt⟩ := hsh
  have hlst : lst ≠ [] := by intro hh; rw [hh] at hl2t; simp at hl2t
  have contra_trail : trailOk (tok ++ b) = true → False := by
    intro htt
    rcases lst with _ | ⟨c0, lst'⟩
    · exact hlst rfl
    · rw [htok] at htt
      simp only [List.cons_append, trailOk] at htt
      rw [wordCh_of_letter (hlett c0 (List.mem_cons_self _ _))] at htt
      simp at htt
  have hlastw : wordCh (a.getLast ha) = false :=
    hlast _ (List.getLast?_eq_getLast a ha)
  have hmp : m <+: a ++ (tok ++ b) := ⟨r, heq.symm⟩
  have hap : a <+: a ++ (tok ++ b) := ⟨tok ++ b, rfl⟩
  rcases List.prefix_or_prefix_of_prefix hmp hap with hma | ham
  · obtain ⟨a2, ha2⟩ := hma
    by_cases h2 : a2 = []
    · exfalso
      subst h2
      rw [List.append_nil] at ha2
      subst ha2
      have hrr : tok ++ b = r := List.append_cancel_left heq
      rw [← hrr] at htr
      exact contra_trail htr
    · refine ⟨a2, ha2.symm, h2, ?_⟩
      have hx : m ++ (a2 ++ (tok ++ b)) = m ++ r := by
        rw [← List.append_assoc, ha2]; exact heq
      exact (List.append_cancel_left hx).symm
  · exfalso
    obtain ⟨m2, hm2⟩ := ham
    by_cases h2 : m2 = []
    · subst h2
      rw [List.append_nil] at hm2
      subst hm2
      have hrr : tok ++ b = r := List.append_cancel_left heq
      rw [← hrr] at htr
      exact contra_trail htr
    · obtain ⟨lsm, dsm, hm, hlm2, hlem, hdm1, hdim⟩ := hshm
      have hmem : a.getLast ha ∈ m := by
        rw [← hm2]
        exact List.mem_append_left _ (List.getLast_mem ha)
      rw [hm] at hmem
      rcases List.mem_append.mp hmem with hin | hin
      · exact absurd (wordCh_of_letter (hlem _ hin)) (by simp [hlastw])
      · rcases List.mem_cons.mp hin with hin | hin
        · have hdl : a.dropLast ++ '-' :: m2 = m := by
            calc a.dropLast ++ '-' :: m2
                = (a.dropLast ++ ['-']) ++ m2 := by simp
              _ = (a.dropLast ++ [a.getLast ha]) ++ m2 := by rw [hin]
              _ = a ++ m2 := by rw [List.dropLast_append_getLast ha]
              _ = m := hm2
          have hsep := sep_unique (x := '-') (hdl.trans hm)
            (fun hmm => (not_hyphen_of_letter (hlem _ hmm)) rfl)
            (fun hmm => (not_hyphen_of_digit (hdim _ hmm)) rfl)
          have hkey : m2 ++ r = tok ++ b := by
            rw [← hm2, List.append_assoc] at heq
            exact (List.append_cancel_left heq).symm
          rw [hsep.2] at hkey
          rcases hds : dsm with _ | ⟨d0, dsm'⟩
          · rw [hds] at hdm1; simp at hdm1
          · rcases lst with _ | ⟨c0, lst'⟩
            · exact hlst rfl
            · rw [hds, htok] at hkey
              simp only [List.cons_append] at hkey
              have hh : d0 = c0 := ((List.cons.injEq _ _ _ _).mp hkey).1
              have hd0 := hdim d0 (by rw [hds]; exact List.mem_cons_self _ _)
              rw [hh] at hd0
              exact absurd hd0
                (by simp [not_digit_of_letter (hlett c0 (List.mem_cons_self _ _))])
        · exact absurd (wordCh_of_digit (hdim _ hin)) (by simp [hlastw])

/-- Pattern-2 analogue of `matchP1_step`: captures of `\b([A-Z]+\d+)\b`
consist of word characters only. -/
theorem matchP2_step {a tok b : Str} {pw : Bool} {m r : Str}
    (ha : a ≠ []) (hlast : ∀ x, a.getLast? = some x → wordCh x = false)
    (hsh : shapedP2 tok)
    (h : matchP2 pw (a ++ (tok ++ b)) = some (m, r)) :
    ∃ a2, a = m ++ a2 ∧ a2 ≠ [] ∧ r = a2 ++ (tok ++ b) := by
  obtain ⟨-, heq, hshm, htr⟩ := matchP2_some_spec h
  obtain ⟨lst, dst, htok, hl1t, hlett, hd1t, hdigt⟩ := hsh
  have hlst : lst ≠ [] := by intro hh; rw [hh] at hl1t; simp at hl1t
  have contra_trail : trailOk (tok ++ b) = true → False := by
    intro htt
    rcases lst with _ | ⟨c0, lst'⟩
    · exact hlst rfl
    · rw [htok] at htt
      simp only [List.cons_append, trailOk] at htt
      rw [wordCh_of_letter (hlett c0 (List.mem_cons_self _ _))] at htt
      simp at htt
  have hlastw : wordCh (a.getLast ha) = false :=
    hlast _ (List.getLast?_eq_getLast a ha)
  have hmp : m <+: a ++ (tok ++ b) := ⟨r, heq.symm⟩
  have hap : a <+: a ++ (tok ++ b) := ⟨tok ++ b, rfl⟩
  rcases List.prefix_or_prefix_of_prefix hmp hap with hma | ham
  · obtain ⟨a2, ha2⟩ := hma
    by_cases h2 : a2 = []
    · exfalso
      subst h2
      rw [List.append_nil] at ha2
      subst ha2
      have hrr : tok ++ b = r := List.append_cancel_left heq
      rw [← hrr] at htr
      exact contra_trail htr
    · refine ⟨a2, ha2.symm, h2, ?_⟩
      have hx : m ++ (a2 ++ (tok ++ b)) = m ++ r := by
        rw [← List.append_assoc, ha2]; exact heq
      exact (List.append_cancel_left hx).symm
  · exfalso
    obtain ⟨m2, hm2⟩ := ham
    by_cases h2 : m2 = []
    · subst h2
      rw [List.append_nil] at hm2
      subst hm2
      have hrr : tok ++ b = r := List.append_cancel_left heq
      rw [← hrr] at htr
      exact contra_trail htr
    · obtain ⟨lsm, dsm, hm, hlm1, hlem, hdm1, hdim⟩ := hshm
      have hmem : a.getLast ha ∈ m := by
        rw [← hm2]
        exact List.mem_append_left _ (List.getLast_mem ha)
      rw [hm] at hmem
      rcases List.mem_append.mp hmem with hin | hin
      · exact absurd (wordCh_of_letter (hlem _ hin)) (by simp [hlastw])
      · exact absurd (wordCh_of_digit (hdim _ hin)) (by simp [hlastw])

theorem findAllP1_cons_some {pw : Bool} {c : Char} {rest m r : Str}
    (h : matchP1 pw (c :: rest) = some (m, r)) :
    findAllP1 pw (c :: rest) = m :: findAllP1 true r := by
  have hr : r.length ≤ rest.length := by
    have := matchP1_some_length h
    simp only [List.length_cons] at this
    omega
  rw [findAllP1]
  simp only [List.length_cons]
  rw [findAllP1F, h]
  dsimp only
  rw [findAllP1F_fuel_irrelevant rest.length true r hr]

theorem findAllP1_cons_none {pw : Bool} {c : Char} {rest : Str}
    (h : matchP1 pw (c :: rest) = none) :
    findAllP1 pw (c :: rest) = findAllP1 (wordCh c) rest := by
  rw [findAllP1]
  simp only [List.length_cons]
  rw [findAllP1F, h]
  dsimp only
  rw [findAllP1F_fuel_irrelevant rest.length (wordCh c) rest le_rfl]

theorem findAllP2_cons_some {pw : Bool} {c : Char} {rest m r : Str}
    (h : matchP2 pw (c :: rest) = some (m, r)) :
    findAllP2 pw (c :: rest) = m :: findAllP2 true r := by
  have hr : r.length ≤ rest.length := by
    have := matchP2_some_length h
    simp only [List.length_cons] at this
    omega
  rw [findAllP2]
  simp only [List.length_cons]
  rw [findAllP2F, h]
  dsimp only
  rw [findAllP2F_fuel_irrelevant rest.length true r hr]

theorem findAllP2_cons_none {pw : Bool} {c : Char} {rest : Str}
    (h : matchP2 pw (c :: rest) = none) :
    findAllP2 pw (c :: rest) = findAllP2 (wordCh c) rest := by
  rw [findAllP2]
  simp only [List.length_cons]
  rw [findAllP2F, h]
  dsimp only
  rw [findAllP2F_fuel_irrelevant rest.length (wordCh c) rest le_rfl]

theorem findAllP1_here {tok b : Str} (hsh : shapedP1 tok) (htr : trailOk b = true) :
    tok ∈ findAllP1 false (tok ++ b) := by
  rcases htk : tok with _ | ⟨c0, tok'⟩
  · exact absurd htk (shapedP1_ne_nil (htk ▸ hsh))
  · subst htk
    have hm2 : matchP1 false (c0 :: (tok' ++ b)) = some (c0 :: tok', b) :=
      matchP1_complete hsh htr
    show c0 :: tok' ∈ findAllP1 false (c0 :: (tok' ++ b))
    rw [findAllP1_cons_some hm2]
    exact List.mem_cons_self _ _

theorem findAllP2_here {tok b : Str} (hsh : shapedP2 tok) (htr : trailOk b = true) :
    tok ∈ findAllP2 false (tok ++ b) := by
  rcases htk : tok with _ | ⟨c0, tok'⟩
  · exact absurd htk (shapedP2_ne_nil (htk ▸ hsh))
  · subst htk
    have hm2 : matchP2 false (c0 :: (tok' ++ b)) = some (c0 :: tok', b) :=
      matchP2_complete hsh htr
    show c0 :: tok' ∈ findAllP2 false (c0 :: (tok' ++ b))
    rw [findAllP2_cons_some hm2]
    exact List.mem_cons_self _ _

/-- The `re.findall` scan for pattern 1 finds every whole-word-delimited
pattern-shaped token: induction over the length of the text before the
token. -/
theorem findAllP1_mem : ∀ (n : Nat) (a : Str) (pw : Bool) (b tok : Str),
    a.length ≤ n → shapedP1 tok → trailOk b = true →
    (a = [] → pw = false) →
    (∀ x, a.getLast? = some x → wordCh x = false) →
    tok ∈ findAllP1 pw (a ++ (tok ++ b)) := by
  intro n
  induction n with
  | zero =>
    intro a pw b tok hlen hsh htr hpw0 _
    have ha : a = [] := List.eq_nil_of_length_eq_zero (Nat.le_zero.mp hlen)
    subst ha
    rw [hpw0 rfl, List.nil_append]
    exact findAllP1_here hsh htr
  | succ n ih =>
    intro a pw b tok hlen hsh htr hpw0 hlast
    rcases a with _ | ⟨c, a'⟩
    · rw [hpw0 rfl, List.nil_append]
      exact findAllP1_here hsh htr
    · cases hm : matchP1 pw ((c :: a') ++ (tok ++ b)) with
      | none =>
        have hm2 : matchP1 pw (c :: (a' ++ (tok ++ b))) = none := hm
        show tok ∈ findAllP1 pw (c :: (a' ++ (tok ++ b)))
        rw [findAllP1_cons_none hm2]
        rcases a' with _ | ⟨d, a''⟩
        · have hc : wordCh c = false := hlast c rfl
          rw [hc]
          show tok ∈ findAllP1 false (tok ++ b)
          exact findAllP1_here hsh htr
        · have hlen2 : (d :: a'').length ≤ n := by
            simp only [List.length_cons] at hlen ⊢
            omega
          exact ih (d :: a'') (wordCh c) b tok hlen2 hsh htr (by simp)
            (fun x hx => hlast x (by rw [List.getLast?_cons_cons]; exact hx))
      | some mr =>
        obtain ⟨m, r⟩ := mr
        obtain ⟨a2, ha2, h2ne, hr⟩ :=
          matchP1_step (List.cons_ne_nil c a') hlast hsh hm
        have hm2 : matchP1 pw (c :: (a' ++ (tok ++ b))) = some (m, r) := hm
        have hmne : m ≠ [] := shapedP1_ne_nil (matchP1_some_spec hm).2.2.1
        have hlen2 : a2.length ≤ n := by
          have h1 : (c :: a').length = m.length + a2.length := by
            rw [ha2, List.length_append]
          have h2 : 1 ≤ m.length := List.length_pos.mpr hmne
          simp only [List.length_cons] at h1 hlen
          omega
        show tok ∈ findAllP1 pw (c :: (a' ++ (tok ++ b)))
        rw [findAllP1_cons_some hm2]
        refine List.mem_cons_of_mem m ?_
        rw [hr]
        exact ih a2 true b tok hlen2 hsh htr (fun hnil => absurd hnil h2ne)
          (fun x hx => hlast x
            (by rw [ha2, List.getLast?_append_of_ne_nil m h2ne]; exact hx))

/-- Pattern-2 analogue of `findAllP1_mem`. -/
theorem findAllP2_mem : ∀ (n : Nat) (a : Str) (pw : Bool) (b tok : Str),
    a.length ≤ n → shapedP2 tok → trailOk b = true →
    (a = [] → pw = false) →
    (∀ x, a.getLast? = some x → wordCh x = false) →
    tok ∈ findAllP2 pw (a ++ (tok ++ b)) := by
  intro n
  induction n with
  | zero =>
    intro a pw b tok hlen hsh htr hpw0 _
    have ha : a = [] := List.eq_nil_of_length_eq_zero (Nat.le_zero.mp hlen)
    subst ha
    rw [hpw0 rfl, List.nil_append]
    exact findAllP2_here hsh htr
  | succ n ih =>
    intro a pw b tok hlen hsh htr hpw0 hlast
    rcases a with _ | ⟨c, a'⟩
    · rw [hpw0 rfl, List.nil_append]
      exact findAllP2_here hsh htr
    · cases hm : matchP2 pw ((c :: a') ++ (tok ++ b)) with
      | none =>
        have hm2 : matchP2 pw (c :: (a' ++ (tok ++ b))) = none := hm
        show tok ∈ findAllP2 pw (c :: (a' ++ (tok ++ b)))
        rw [findAllP2_cons_none hm2]
        rcases a' with _ | ⟨d, a''⟩
        · have hc : wordCh c = false := hlast c rfl
          rw [hc]
          show tok ∈ findAllP2 false (tok ++ b)
          exact findAllP2_here hsh htr
        · have hlen2 : (d :: a'').length ≤ n := by
            simp only [List.length_cons] at hlen ⊢
            omega
          exact ih (d :: a'') (wordCh c) b tok hlen2 hsh htr (by simp)
            (fun x hx => hlast x (by rw [List.getLast?_cons_cons]; exact hx))
      | some mr =>
        obtain ⟨m, r⟩ := mr
        obtain ⟨a2, ha2, h2ne, hr⟩ :=
          matchP2_step (List.cons_ne_nil c a') hlast hsh hm
        have hm2 : matchP2 pw (c :: (a' ++ (tok ++ b))) = some (m, r) := hm
        have hmne : m ≠ [] := shapedP2_ne_nil (matchP2_some_spec hm).2.2.1
        have hlen2 : a2.length ≤ n := by
          have h1 : (c :: a').length = m.length + a2.length := by
            rw [ha2, List.length_append]
          have h2 : 1 ≤ m.length := List.length_pos.mpr hmne
          simp only [List.length_cons] at h1 hlen
          omega
        show tok ∈ findAllP2 pw (c :: (a' ++ (tok ++ b)))
        rw [findAllP2_cons_some hm2]
        refine List.mem_cons_of_mem m ?_
        rw [hr]
        exact ih a2 true b tok hlen2 hsh htr (fun hnil => absurd hnil h2ne)
          (fun x hx => hlast x
            (by rw [ha2, List.getLast?_append_of_ne_nil m h2ne]; exact hx))


/-! ### Membership and dedup facts for the extracted-identifier set -/

theorem mem_foldl_insertUnique (l : List Str) :
    ∀ (acc : List Str) (x : Str),
      x ∈ l.foldl insertUnique acc ↔ x ∈ acc ∨ x ∈ l := by
  induction l with
  | nil => intro acc x; simp
  | cons a l ih =>
    intro acc x
    rw [List.foldl_cons, ih]
    constructor
    · rintro (hx | hx)
      · rw [insertUnique] at hx
        by_cases ha : a ∈ acc
        · rw [if_pos ha] at hx; exact Or.inl hx
        · rw [if_neg ha] at hx
          rcases List.mem_append.mp hx with hx | hx
          · exact Or.inl hx
          · exact Or.inr (List.mem_cons.mpr (Or.inl (List.mem_singleton.mp hx)))
      · exact Or.inr (List.mem_cons_of_mem _ hx)
    · rintro (hx | hx)
      · left
        rw [insertUnique]
        by_cases ha : a ∈ acc
        · rw [if_pos ha]; exact hx
        · rw [if_neg ha]; exact List.mem_append_left _ hx
      · rcases List.mem_cons.mp hx with hx | hx
        · left
          rw [insertUnique]
          by_cases ha : a ∈ acc
          · rw [if_pos ha]; exact hx ▸ ha
          · rw [if_neg ha]
            exact List.mem_append_right _ (List.mem_singleton.mpr hx)
        · right; exact hx

theorem nodup_foldl_insertUnique (l : List Str) :
    ∀ (acc : List Str), acc.Nodup → (l.foldl insertUnique acc).Nodup := by
  induction l with
  | nil => intro acc h; simpa using h
  | cons a l ih =>
    intro acc h
    rw [List.foldl_cons]
    apply ih
    rw [insertUnique]
    by_cases ha : a ∈ acc
    · rw [if_pos ha]; exact h
    · rw [if_neg ha]
      simp [List.nodup_append, h, ha]

theorem extract_mem_of_findAllP1 {text tok : Str} (h : tok ∈ findAllP1 false text) :
    tok.map asciiUpper ∈ extractTicketIds text := by
  rw [extractTicketIds]
  exact (mem_foldl_insertUnique _ _ _).mpr
    (Or.inr (List.mem_append_left _ (List.mem_map_of_mem _ h)))

theorem extract_mem_of_findAllP2 {text tok : Str} (h : tok ∈ findAllP2 false text) :
    tok.map asciiUpper ∈ extractTicketIds text := by
  rw [extractTicketIds]
  exact (mem_foldl_insertUnique _ _ _).mpr
    (Or.inr (List.mem_append_right _ (List.mem_map_of_mem _ h)))

theorem extractTicketIds_nodup (text : Str) : (extractTicketIds text).Nodup :=
  nodup_foldl_insertUnique _ [] List.nodup_nil

/-! ### Inverting `str.upper` on a known canonical identifier -/

theorem asciiUpper_to_letter {c u : Char} (h : asciiUpper c = u)
    (hu : isAsciiUpperCh u = true) : isAsciiLetterCh c = true := by
  rw [asciiUpper] at h
  cases hf : caseTable.find? (fun p => p.1 == c) with
  | none =>
    rw [hf] at h
    subst h
    simp [isAsciiLetterCh, hu]
  | some p =>
    rw [hf] at h
    have hp := List.mem_of_find?_eq_some hf
    have hc := List.find?_some hf
    have hc2 : p.1 = c := by simpa using hc
    have hall : ∀ q ∈ caseTable, isAsciiLetterCh q.1 = true := by decide
    rw [← hc2]
    exact hall p hp

theorem asciiUpper_to_nonletter {c u : Char} (h : asciiUpper c = u)
    (hu : isAsciiUpperCh u = false) : c = u := by
  rw [asciiUpper] at h
  cases hf : caseTable.find? (fun p => p.1 == c) with
  | none => rw [hf] at h; exact h
  | some p =>
    rw [hf] at h
    have hp := List.mem_of_find?_eq_some hf
    have hall : ∀ q ∈ caseTable, isAsciiUpperCh q.2 = true := by decide
    rw [← h] at hu
    exact absurd (hall p hp) (by simp [hu])

theorem shapedP1_of_upper_ABCD {t1 : Str}
    (h : t1.map asciiUpper = String.toList "ABCD-1234") : shapedP1 t1 := by
  rw [show String.toList "ABCD-1234" = ['A', 'B', 'C', 'D', '-', '1', '2', '3', '4']
    from rfl] at h
  rcases t1 with _ | ⟨c0, _ | ⟨c1, _ | ⟨c2, _ | ⟨c3, _ | ⟨c4, _ | ⟨c5, _ | ⟨c6,
    _ | ⟨c7, _ | ⟨c8, _ | ⟨c9, rest⟩⟩⟩⟩⟩⟩⟩⟩⟩⟩ <;> simp at h
  obtain ⟨h0, h1, h2, h3, h4, h5, h6, h7, h8⟩ := h
  have hc4 : c4 = '-' := asciiUpper_to_nonletter h4 (by decide)
  have hc5 : c5 = '1' := asciiUpper_to_nonletter h5 (by decide)
  have hc6 : c6 = '2' := asciiUpper_to_nonletter h6 (by decide)
  have hc7 : c7 = '3' := asciiUpper_to_nonletter h7 (by decide)
  have hc8 : c8 = '4' := asciiUpper_to_nonletter h8 (by decide)
  subst hc4; subst hc5; subst hc6; subst hc7; subst hc8
  refine ⟨[c0, c1, c2, c3], ['1', '2', '3', '4'], by simp, by simp, ?_, by simp, by decide⟩
  intro c hc
  rcases List.mem_cons.mp hc with rfl | hc
  · exact asciiUpper_to_letter h0 (by decide)
  rcases List.mem_cons.mp hc with rfl | hc
  · exact asciiUpper_to_letter h1 (by decide)
  rcases List.mem_cons.mp hc with rfl | hc
  · exact asciiUpper_to_letter h2 (by decide)
  rcases List.mem_cons.mp hc with rfl | hc
  · exact asciiUpper_to_letter h3 (by decide)
  exact absurd hc (List.not_mem_nil c)

theorem shapedP2_of_upper_WXYZ {t2 : Str}
    (h : t2.map asciiUpper = String.toList "WXYZ5678") : shapedP2 t2 := by
  rw [show String.toList "WXYZ5678" = ['W', 'X', 'Y', 'Z', '5', '6', '7', '8']
    from rfl] at h
  rcases t2 with _ | ⟨c0, _ | ⟨c1, _ | ⟨c2, _ | ⟨c3, _ | ⟨c4, _ | ⟨c5, _ | ⟨c6,
    _ | ⟨c7, _ | ⟨c8, rest⟩⟩⟩⟩⟩⟩⟩⟩⟩ <;> simp at h
  obtain ⟨h0, h1, h2, h3, h4, h5, h6, h7⟩ := h
  have hc4 : c4 = '5' := asciiUpper_to_nonletter h4 (by decide)
  have hc5 : c5 = '6' := asciiUpper_to_nonletter h5 (by decide)
  have hc6 : c6 = '7' := asciiUpper_to_nonletter h6 (by decide)
  have hc7 : c7 = '8' := asciiUpper_to_nonletter h7 (by decide)
  subst hc4; subst hc5; subst hc6; subst hc7
  refine ⟨[c0, c1, c2, c3], ['5', '6', '7', '8'], by simp, by simp, ?_, by simp, by decide⟩
  intro c hc
  rcases List.mem_cons.mp hc with rfl | hc
  · exact asciiUpper_to_letter h0 (by decide)
  rcases List.mem_cons.mp hc with rfl | hc
  · exact asciiUpper_to_letter h1 (by decide)
  rcases List.mem_cons.mp hc with rfl | hc
  · exact asciiUpper_to_letter h2 (by decide)
  rcases List.mem_cons.mp hc with rfl | hc
  · exact asciiUpper_to_letter h3 (by decide)
  exact absurd hc (List.not_mem_nil c)

/-! ### Word-boundary side conditions as decidable checks -/

def headNotWord (l : Str) : Bool :=
  match l.head? with
  | none => true
  | some c => !wordCh c

def lastNotWord (l : Str) : Bool :=
  match l.getLast? with
  | none => true
  | some c => !wordCh c

theorem headNotWord_spec {l : Str} (h : headNotWord l = true) :
    ∀ x, l.head? = some x → wordCh x = false := by
  intro x hx
  rw [headNotWord, hx] at h
  simpa using h

theorem lastNotWord_spec {l : Str} (h : lastNotWord l = true) :
    ∀ x, l.getLast? = some x → wordCh x = false := by
  intro x hx
  rw [lastNotWord, hx] at h
  simpa using h

theorem trailOk_of_headNotWord {l : Str} (h : headNotWord l = true) :
    trailOk l = true := by
  rcases l with _ | ⟨c, t⟩
  · rfl
  · rw [headNotWord] at h
    simpa [trailOk] using h

theorem head?_append_left {l : Str} (t : Str) (h : l ≠ []) :
    (l ++ t).head? = l.head? := by
  rcases l with _ | ⟨c, l2⟩
  · exact absurd rfl h
  · rfl


theorem headNotWord_congr {l l2 : Str} (h : l.head? = l2.head?) :
    headNotWord l = headNotWord l2 := by
  rw [headNotWord, headNotWord, h]

/-- **C1**: for every text containing the tokens `ABCD-1234` and `WXYZ5678` as
whole words (neighbouring characters, if any, are not word characters) in any
letter casing, `extract_ticket_ids` returns a collection containing both
identifiers canonicalised to uppercase; the collection never contains
duplicates even if a token repeats; and for every text in which neither
pattern matches anywhere, it returns the empty collection (the function is
total, so absence of matches cannot raise). -/
theorem C1_extract_ticket_ids :
    (∀ pre t1 mid t2 suf : Str,
      t1.map asciiUpper = String.toList "ABCD-1234" →
      t2.map asciiUpper = String.toList "WXYZ5678" →
      lastNotWord pre = true → mid ≠ [] →
      headNotWord mid = true → lastNotWord mid = true →
      headNotWord suf = true →
      String.toList "ABCD-1234" ∈ extractTicketIds (pre ++ t1 ++ mid ++ t2 ++ suf) ∧
        String.toList "WXYZ5678" ∈ extractTicketIds (pre ++ t1 ++ mid ++ t2 ++ suf)) ∧
    (∀ text : Str, (extractTicketIds text).Nodup) ∧
    (∀ text : Str, findAllP1 false text = [] → findAllP2 false text = [] →
      extractTicketIds text = []) := by
  refine ⟨?_, extractTicketIds_nodup, ?_⟩
  · intro pre t1 mid t2 suf ht1 ht2 hpre hmidne hmidh hmidl hsufh
    have hsh1 := shapedP1_of_upper_ABCD ht1
    have hsh2 := shapedP2_of_upper_WXYZ ht2
    constructor
    · rw [← ht1]
      apply extract_mem_of_findAllP1
      have htext : pre ++ t1 ++ mid ++ t2 ++ suf =
          pre ++ (t1 ++ (mid ++ (t2 ++ suf))) := by
        simp [List.append_assoc]
      rw [htext]
      apply findAllP1_mem pre.length pre false (mid ++ (t2 ++ suf)) t1 le_rfl hsh1
      · apply trailOk_of_headNotWord
        rw [headNotWord_congr (head?_append_left _ hmidne)]
        exact hmidh
      · exact fun _ => rfl
      · exact lastNotWord_spec hpre
    · rw [← ht2]
      apply extract_mem_of_findAllP2
      have htext : pre ++ t1 ++ mid ++ t2 ++ suf =
          (pre ++ t1 ++ mid) ++ (t2 ++ suf) := by
        simp [List.append_assoc]
      rw [htext]
      apply findAllP2_mem (pre ++ t1 ++ mid).length _ false suf t2 le_rfl hsh2
      · exact trailOk_of_headNotWord hsufh
      · exact fun _ => rfl
      · intro x hx
        rw [List.getLast?_append_of_ne_nil _ hmidne] at hx
        exact lastNotWord_spec hmidl x hx
  · intro text h1 h2
    rw [extractTicketIds, h1, h2]
    rfl

/-- Witness for **C1** at the concrete text `"x abcd-1234, wxyz5678!"`. -/
theorem C1_witness :
    String.toList "ABCD-1234" ∈
      extractTicketIds (String.toList "x abcd-1234, wxyz5678!") ∧
    String.toList "WXYZ5678" ∈
      extractTicketIds (String.toList "x abcd-1234, wxyz5678!") := by
  have h := C1_extract_ticket_ids.1 (String.toList "x ") (String.toList "abcd-1234")
    (String.toList ", ") (String.toList "wxyz5678") (String.toList "!")
    (by decide) (by decide) (by decide) (by decide) (by decide) (by decide) (by decide)
  have heq : String.toList "x " ++ String.toList "abcd-1234" ++ String.toList ", " ++
      String.toList "wxyz5678" ++ String.toList "!" =
      String.toList "x abcd-1234, wxyz5678!" := by decide
  rw [heq] at h
  exact h


/-! ### `DataPreprocessor._extract_context` -/

/-- Word-character test at an index (out of bounds counts as non-word), used
by the `\b` assertions of `re`. -/
def wordAtIdx (text : Str) (i : Nat) : Bool :=
  match text[i]? with
  | some c => wordCh c
  | none => false

/-- `\b` at position `i`: word-ness changes between the previous and the
current character. -/
def boundaryAt (text : Str) (i : Nat) : Bool :=
  (if i = 0 then false else wordAtIdx text (i - 1)) != wordAtIdx text i

/-- Case-insensitive literal match of `tok` against a prefix of the text. -/
def ciPrefix : Str → Str → Bool
  | [], _ => true
  | _ :: _, [] => false
  | c :: cs, d :: ds => (asciiUpper d == asciiUpper c) && ciPrefix cs ds

/-- `re.compile(rf'\b{re.escape(ticket_id)}\b', re.IGNORECASE)` matching at
position `i`. -/
def matchWordAt (text tok : Str) (i : Nat) : Bool :=
  boundaryAt text i && ciPrefix tok (text.drop i) && boundaryAt text (i + tok.length)

/-- `pattern.search(text)`: position of the first whole-word case-insensitive
occurrence. -/
def findWordCI (text tok : Str) : Option Nat :=
  (List.range (text.length + 1)).find? (matchWordAt text tok)

/-- `DataPreprocessor._extract_context`. -/
def extractContext (text tok : Str) (contextSize : Nat := 100) : Str :=
  match findWordCI text tok with
  | some i =>
    let start := i - contextSize
    let stop := min text.length (i + tok.length + contextSize)
    let context := pyStrip ((text.take stop).drop start)
    let context2 := if 0 < start then '.' :: '.' :: '.' :: context else context
    if stop < text.length then context2 ++ ['.', '.', '.'] else context2
  | none => []

/-! ### `DataPreprocessor._extract_git_commits_for_ticket` -/

def extractGitCommitsForTicket (gitLog tok : Str) : List Str :=
  (splitNl gitLog).foldl
    (fun commits line =>
      if containsSub (tok.map asciiUpper) (line.map asciiUpper) then
        let commit := pyStrip line
        if commit ≠ [] ∧ commit ∉ commits then commits ++ [commit] else commits
      else commits) []

/-! ### `DataPreprocessor._extract_time_duration`

The duration regex `(\d+:\d+:\d+|\d+:\d+)`: at a given start position the
three-part alternative succeeds iff a colon follows each of the first two
maximal digit runs and a digit follows the second colon; otherwise the
two-part alternative is tried. -/

def matchClock (xs : Str) : Option Str :=
  let d1 := xs.takeWhile isDigitCh
  let r1 := xs.dropWhile isDigitCh
  if d1 ≠ [] ∧ r1.head? = some ':' then
    let d2 := r1.tail.takeWhile isDigitCh
    let r2 := r1.tail.dropWhile isDigitCh
    if d2 ≠ [] then
      if r2.head? = some ':' ∧ r2.tail.takeWhile isDigitCh ≠ [] then
        some (d1 ++ ':' :: d2 ++ ':' :: r2.tail.takeWhile isDigitCh)
      else some (d1 ++ ':' :: d2)
    else none
  else none

/-- `re.search` for the duration pattern: leftmost match. -/
def searchClock : Str → Option Str
  | [] => none
  | c :: rest =>
    match matchClock (c :: rest) with
    | some m => some m
    | none => searchClock rest

/-- First duration found on lines `max(0, i-1) .. min(len, i+2) - 1`. -/
def firstSome : List (Option Str) → Option Str
  | [] => none
  | some x :: _ => some x
  | none :: rest => firstSome rest

def durationNear (lines : List Str) (i : Nat) : Option Str :=
  firstSome ((List.range' (i - 1) (min lines.length (i + 2) - (i - 1))).map
    (fun j => searchClock (lines.getD j [])))

/-- The enumerate loop of `_extract_time_duration`: the first line containing
the ticket id (case-sensitive substring test) whose neighbourhood contains a
duration token yields that token; lines whose test or neighbourhood search
fails are skipped. -/
def extractTimeDuration (timewData tok : Str) : Option Str :=
  firstSome ((List.range (splitNl timewData).length).map
    (fun i =>
      if containsSub tok ((splitNl timewData).getD i []) then
        durationNear (splitNl timewData) i
      else none))

/-! ### `DataPreprocessor.correlate_ticket_data` -/

/-- The per-identifier record built by `correlate_ticket_data`
(the `defaultdict` value dictionary; `time_duration` is the key that is only
added when a duration is found). -/
structure Entry where
  mentioned_in_notes : Bool
  jira_status : Option Str
  jira_summary : Option Str
  git_commits : List Str
  time_tracked : Bool
  time_duration : Option Str
  contexts : List (Str × Str)
deriving DecidableEq

def defaultEntry : Entry :=
  { mentioned_in_notes := false, jira_status := none, jira_summary := none,
    git_commits := [], time_tracked := false, time_duration := none, contexts := [] }

/-- The correlated mapping: association list in first-touch (insertion)
order, mirroring Python dict semantics. -/
abbrev CorrMap := List (Str × Entry)

/-- `correlated[k]` access-and-update of the `defaultdict`: creates the entry
with default fields on first touch (appended, preserving insertion order). -/
def updateEntry (m : CorrMap) (k : Str) (f : Entry → Entry) : CorrMap :=
  match m with
  | [] => [(k, f defaultEntry)]
  | (k2, e) :: rest =>
    if k2 = k then (k2, f e) :: rest else (k2, e) :: updateEntry rest k f

def lookupEntry (m : CorrMap) (k : Str) : Option Entry :=
  match m with
  | [] => none
  | (k2, e) :: rest => if k2 = k then some e else lookupEntry rest k

/-- The fields of a tracker ticket the correlator reads:
`ticket.get('fields', {}).get('status', {}).get('name')` and
`...get('summary')`. -/
structure JiraFields where
  statusName : Option Str
  summary : Option Str
deriving DecidableEq

/-- A tracker record: `ticket.get('key', '')` yields `key` (empty when the
key is missing). -/
structure JiraTicket where
  key : Str
  fields : JiraFields
deriving DecidableEq

/-- Phase 1 of `correlate_ticket_data`: tickets extracted from notes. -/
def applyNotes (notes : Str) (m0 : CorrMap) : CorrMap :=
  (extractTicketIds notes).foldl
    (fun m ticket =>
      let m1 := updateEntry m ticket (fun e => { e with mentioned_in_notes := true })
      let context := extractContext notes ticket
      if context ≠ [] then
        updateEntry m1 ticket
          (fun e => { e with contexts := e.contexts ++ [(String.toList "notes", context)] })
      else m1) m0

/-- Phase 2: tracker records, keyed verbatim by their `key` field. -/
def applyJira (jiraTickets : List JiraTicket) (m0 : CorrMap) : CorrMap :=
  jiraTickets.foldl
    (fun m ticket =>
      if ticket.key ≠ [] then
        updateEntry m ticket.key
          (fun e => { e with jira_status := ticket.fields.statusName,
                             jira_summary := ticket.fields.summary })
      else m) m0

/-- Phase 3: tickets extracted from the commit log. -/
def applyGit (gitCommits : Str) (m0 : CorrMap) : CorrMap :=
  (extractTicketIds gitCommits).foldl
    (fun m ticket =>
      let commits := extractGitCommitsForTicket gitCommits ticket
      updateEntry m ticket
        (fun e => { e with git_commits := e.git_commits ++ commits })) m0

/-- Phase 4: tickets extracted from the time-tracking text. -/
def applyTimew (timewData : Str) (m0 : CorrMap) : CorrMap :=
  (extractTicketIds timewData).foldl
    (fun m ticket =>
      let m1 := updateEntry m ticket (fun e => { e with time_tracked := true })
      match extractTimeDuration timewData ticket with
      | some d => updateEntry m1 ticket (fun e => { e with time_duration := some d })
      | none => m1) m0

/-- `DataPreprocessor.correlate_ticket_data`. -/
def correlateTicketData (notes : Str) (jiraTickets : List JiraTicket)
    (gitCommits : Str) (timewData : Str) : CorrMap :=
  applyTimew timewData (applyGit gitCommits (applyJira jiraTickets (applyNotes notes [])))


/-! ### `DataPreprocessor._clean_notes`

The timestamp pattern `(\d{1,2}:\d{2})\s*(?:am|pm|AM|PM)?\s*-\s*`: greedy
one-or-two digit hour, colon, exactly two minute digits, optional spacing and
optional literal am/pm marker, then a dash with optional spacing.  `re.sub`
removes each non-overlapping leftmost match. -/

/-- Hour-and-colon part of the timestamp pattern: two digits then `:` is
tried first, then one digit then `:`. -/
def hourSplit : Str → Option Str
  | a :: b :: c :: rest =>
    if isDigitCh a ∧ isDigitCh b ∧ c = ':' then some rest
    else if isDigitCh a ∧ b = ':' then some (c :: rest)
    else none
  | [a, b] => if isDigitCh a ∧ b = ':' then some [] else none
  | _ => none

/-- A match attempt of the timestamp pattern after the hour and colon; on
success returns the text after the removed portion.  When the optional am/pm
group matches but no dash follows, the whole attempt fails: the regex cannot
backtrack into a success because the dash would have to sit where the am/pm
letters are. -/
def matchTimestampAux : Str → Option Str
  | m1 :: m2 :: rest =>
    if isDigitCh m1 ∧ isDigitCh m2 then
      if (String.toList "am").isPrefixOf (rest.dropWhile isPySpace) ∨
          (String.toList "pm").isPrefixOf (rest.dropWhile isPySpace) ∨
          (String.toList "AM").isPrefixOf (rest.dropWhile isPySpace) ∨
          (String.toList "PM").isPrefixOf (rest.dropWhile isPySpace) then
        (if (((rest.dropWhile isPySpace).drop 2).dropWhile isPySpace).head? = some '-' then
          some ((((((rest.dropWhile isPySpace).drop 2)).dropWhile isPySpace).tail).dropWhile
            isPySpace)
        else none)
      else if (rest.dropWhile isPySpace).head? = some '-' then
        some (((rest.dropWhile isPySpace).tail).dropWhile isPySpace)
      else none
    else none
  | _ => none

/-- A match attempt of the timestamp pattern
`(\d{1,2}:\d{2})\s*(?:am|pm|AM|PM)?\s*-\s*` at the current position. -/
def matchTimestamp (xs : Str) : Option Str :=
  match hourSplit xs with
  | none => none
  | some afterColon => matchTimestampAux afterColon

theorem hourSplit_length {xs r : Str} (h : hourSplit xs = some r) :
    r.length + 2 ≤ xs.length := by
  rcases xs with _ | ⟨a, _ | ⟨b, _ | ⟨c, rest⟩⟩⟩
  · simp [hourSplit] at h
  · simp [hourSplit] at h
  · rw [hourSplit] at h
    split at h
    · simp only [Option.some.injEq] at h; subst h; simp
    · cases h
  · rw [hourSplit] at h
    split at h
    · simp only [Option.some.injEq] at h; subst h; simp
    · split at h
      · simp only [Option.some.injEq] at h; subst h; simp
      · cases h

theorem dropWhile_length_le (p : Char → Bool) (l : Str) :
    (l.dropWhile p).length ≤ l.length := by
  induction l with
  | nil => simp
  | cons c t ih =>
    rw [List.dropWhile_cons]
    split
    · exact Nat.le_succ_of_le ih
    · simp

theorem matchTimestampAux_length {ac r : Str} (h : matchTimestampAux ac = some r) :
    ∃ m1 m2 rest, ac = m1 :: m2 :: rest ∧ r.length ≤ rest.length := by
  rcases ac with _ | ⟨m1, _ | ⟨m2, rest⟩⟩
  · simp [matchTimestampAux] at h
  · simp [matchTimestampAux] at h
  · refine ⟨m1, m2, rest, rfl, ?_⟩
    rw [matchTimestampAux] at h
    have hsp1 : (rest.dropWhile isPySpace).length ≤ rest.length :=
      dropWhile_length_le _ _
    split at h
    · split at h
      · split at h
        · simp only [Option.some.injEq] at h
          subst h
          have h1 := dropWhile_length_le isPySpace
            ((((rest.dropWhile isPySpace).drop 2).dropWhile isPySpace).tail)
          have h2 : ((((rest.dropWhile isPySpace).drop 2).dropWhile isPySpace).tail).length ≤
              (((rest.dropWhile isPySpace).drop 2).dropWhile isPySpace).length := by
            rw [List.length_tail]
            omega
          have h3 := dropWhile_length_le isPySpace ((rest.dropWhile isPySpace).drop 2)
          have h4 : ((rest.dropWhile isPySpace).drop 2).length ≤
              (rest.dropWhile isPySpace).length := by
            rw [List.length_drop]
            omega
          omega
        · cases h
      · split at h
        · simp only [Option.some.injEq] at h
          subst h
          have h1 := dropWhile_length_le isPySpace ((rest.dropWhile isPySpace).tail)
          have h2 : ((rest.dropWhile isPySpace).tail).length ≤
              (rest.dropWhile isPySpace).length := by
            rw [List.length_tail]
            omega
          omega
        · cases h
    · cases h

theorem matchTimestamp_some_length {xs r : Str} (h : matchTimestamp xs = some r) :
    r.length < xs.length := by
  rw [matchTimestamp] at h
  rcases hh : hourSplit xs with _ | ac
  · rw [hh] at h; cases h
  · rw [hh] at h
    have hac := hourSplit_length hh
    obtain ⟨m1, m2, rest, rfl, hr⟩ := matchTimestampAux_length h
    simp only [List.length_cons] at hac
    omega

/-- `re.sub` of the timestamp pattern with the empty replacement: scan left
to right, removing each match.  The `fuel` argument only drives structural
recursion; every step consumes at least one character
(`matchTimestamp_some_length`), so `fuel = length` never runs out. -/
def subTimestampsF : Nat → Str → Str
  | 0, _ => []
  | fu + 1, xs =>
    match xs with
    | [] => []
    | c :: rest =>
      match matchTimestamp (c :: rest) with
      | some r => subTimestampsF fu r
      | none => c :: subTimestampsF fu rest

def subTimestamps (xs : Str) : Str := subTimestampsF xs.length xs

theorem subTimestampsF_fuel_irrelevant :
    ∀ (fuel : Nat) (xs : Str), xs.length ≤ fuel →
      subTimestampsF fuel xs = subTimestamps xs := by
  intro fuel
  induction fuel using Nat.strong_induction_on with
  | _ fuel ih =>
    intro xs hlen
    rcases fuel with _ | fu
    · have hx : xs = [] := List.eq_nil_of_length_eq_zero (Nat.le_zero.mp hlen)
      subst hx
      rfl
    · rcases xs with _ | ⟨c, rest⟩
      · rfl
      · simp only [List.length_cons] at hlen
        rw [subTimestamps]
        simp only [List.length_cons]
        rw [subTimestampsF, subTimestampsF]
        cases hm : matchTimestamp (c :: rest) with
        | none =>
          dsimp only
          rw [ih fu (by omega) rest (by omega),
            ih rest.length (by omega) rest le_rfl]
        | some r =>
          have hr : r.length ≤ rest.length := by
            have := matchTimestamp_some_length hm
            simp only [List.length_cons] at this
            omega
          dsimp only
          rw [ih fu (by omega) r (by omega), ih rest.length (by omega) r hr]

/-- `re.sub(r'\n{3,}', '\n\n', ...)`: a maximal run of three or more newlines
becomes exactly two.  Structural recursion on a length fuel as above. -/
def collapseNewlinesF : Nat → Str → Str
  | 0, _ => []
  | fu + 1, xs =>
    match xs with
    | [] => []
    | c :: rest =>
      if c = '\n' then
        (if 3 ≤ ((c :: rest).takeWhile (fun d => d = '\n')).length then ['\n', '\n']
         else (c :: rest).takeWhile (fun d => d = '\n')) ++
          collapseNewlinesF fu ((c :: rest).dropWhile (fun d => d = '\n'))
      else c :: collapseNewlinesF fu rest

def collapseNewlines (xs : Str) : Str := collapseNewlinesF xs.length xs

/-- `re.sub(r' {2,}', ' ', ...)`: a maximal run of two or more spaces becomes
one. -/
def collapseSpacesF : Nat → Str → Str
  | 0, _ => []
  | fu + 1, xs =>
    match xs with
    | [] => []
    | c :: rest =>
      if c = ' ' then
        (if 2 ≤ ((c :: rest).takeWhile (fun d => d = ' ')).length then [' ']
         else (c :: rest).takeWhile (fun d => d = ' ')) ++
          collapseSpacesF fu ((c :: rest).dropWhile (fun d => d = ' '))
      else c :: collapseSpacesF fu rest

def collapseSpaces (xs : Str) : Str := collapseSpacesF xs.length xs

/-- `DataPreprocessor._clean_notes` (the `ticket_ids` parameter is accepted
and ignored exactly as in the source). -/
def cleanNotes (notes : Str) (ticketIds : List Str) : Str :=
  let n1 := subTimestamps notes
  let n2 := collapseNewlines n1
  let n3 := collapseSpaces n2
  joinNl (((splitNl n3).map pyStrip).filter (fun l => l ≠ []))


/-! ### Dates and `strftime` fragments used by `structure_for_ai` -/

/-- The calendar date part of a `datetime` (`.date()` comparisons and the
`%Y-%m-%d`, `%A`, `%B`, `%d` format codes only need this). -/
structure PyDate where
  year : Nat
  month : Nat
  day : Nat
deriving DecidableEq

def natRepr (n : Nat) : Str := (Nat.repr n).toList

/-- Zero-padded two-digit field (`%m`, `%d`). -/
def pad2 (n : Nat) : Str := if n < 10 then '0' :: natRepr n else natRepr n

/-- Four-digit year field (`%Y`). -/
def pad4 (n : Nat) : Str :=
  List.replicate (4 - (natRepr n).length) '0' ++ natRepr n

/-- `datetime.weekday()` (Monday = 0) via Zeller's congruence. -/
def pyWeekday (dt : PyDate) : Nat :=
  let yAdj := if dt.month < 3 then dt.year - 1 else dt.year
  let mAdj := if dt.month < 3 then dt.month + 12 else dt.month
  let K := yAdj % 100
  let J := yAdj / 100
  let h := (dt.day + 13 * (mAdj + 1) / 5 + K + K / 4 + J / 4 + 5 * J) % 7
  (h + 5) % 7

/-- `%A` weekday names, indexed by `pyWeekday`. -/
def weekdayName (w : Nat) : Str :=
  match w with
  | 0 => String.toList "Monday"
  | 1 => String.toList "Tuesday"
  | 2 => String.toList "Wednesday"
  | 3 => String.toList "Thursday"
  | 4 => String.toList "Friday"
  | 5 => String.toList "Saturday"
  | _ => String.toList "Sunday"

/-- `%B` month names. -/
def monthName (m : Nat) : Str :=
  match m with
  | 1 => String.toList "January"
  | 2 => String.toList "February"
  | 3 => String.toList "March"
  | 4 => String.toList "April"
  | 5 => String.toList "May"
  | 6 => String.toList "June"
  | 7 => String.toList "July"
  | 8 => String.toList "August"
  | 9 => String.toList "September"
  | 10 => String.toList "October"
  | 11 => String.toList "November"
  | _ => String.toList "December"

/-- `strftime('%Y-%m-%d')`. -/
def fmtYMD (dt : PyDate) : Str :=
  pad4 dt.year ++ '-' :: (pad2 dt.month ++ '-' :: pad2 dt.day)

/-- `strftime('%A, %B %d')`. -/
def fmtAB (dt : PyDate) : Str :=
  weekdayName (pyWeekday dt) ++ String.toList ", " ++ monthName dt.month ++
    ' ' :: pad2 dt.day

/-! ### `DataPreprocessor.structure_for_ai` -/

/-- Python truthiness of an optional string field (`None` and `''` are both
falsy). -/
def truthyOpt : Option Str → Bool
  | none => false
  | some s => !s.isEmpty

/-- The classification test of `structure_for_ai`:
`data['git_commits'] or data['time_tracked'] or data['mentioned_in_notes']`. -/
def isActive (e : Entry) : Bool :=
  !e.git_commits.isEmpty || e.time_tracked || e.mentioned_in_notes

/-- The active / mentioned-only partition (the classification loop of
`structure_for_ai`, preserving iteration order of the mapping). -/
def partitionTickets (corr : CorrMap) : List (Str × Entry) × List (Str × Entry) :=
  (corr.filter (fun p => isActive p.2), corr.filter (fun p => !isActive p.2))

/-- Python `<` on strings: lexicographic comparison by code point. -/
def keyLt : Str → Str → Bool
  | [], [] => false
  | [], _ :: _ => true
  | _ :: _, [] => false
  | c :: cs, d :: ds => if c < d then true else if d < c then false else keyLt cs ds

/-- Stable insertion step for `sorted` on (identifier, entry) pairs: tuples
compare by the identifier first, and the identifiers are distinct in every
mapping the correlator produces. -/
def insertSorted (x : Str × Entry) : List (Str × Entry) → List (Str × Entry)
  | [] => [x]
  | y :: ys => if keyLt x.1 y.1 then x :: y :: ys else y :: insertSorted x ys

/-- Python `sorted` (stable, ascending). -/
def sortByKey (l : List (Str × Entry)) : List (Str × Entry) :=
  l.foldr insertSorted []

/-- The lines appended for one active ticket. -/
def activeLines (p : Str × Entry) : List Str :=
  ('\n' :: '•' :: ' ' :: p.1) ::
  ((if truthyOpt p.2.jira_summary then
      [String.toList "  Summary: " ++ (p.2.jira_summary.getD [])]
    else []) ++
   (if truthyOpt p.2.jira_status then
      [String.toList "  Status: " ++ (p.2.jira_status.getD [])]
    else []) ++
   (if truthyOpt p.2.time_duration then
      [String.toList "  Time spent: " ++ (p.2.time_duration.getD [])]
    else []) ++
   (if !p.2.git_commits.isEmpty then
      (String.toList "  Commits: " ++ natRepr p.2.git_commits.length ++
        String.toList " commit(s)") ::
      (p.2.git_commits.take 2).map (fun c => String.toList "    - " ++ c.take 100)
    else []) ++
   (if !p.2.contexts.isEmpty then
      (p.2.contexts.take 1).map (fun sc => String.toList "  Context: " ++ sc.2.take 150)
    else []))

/-- The single line appended for one mentioned-only ticket. -/
def mentionedLine (p : Str × Entry) : Str :=
  (('•' :: ' ' :: p.1) ++
    (if truthyOpt p.2.jira_status then
      String.toList " (" ++ (p.2.jira_status.getD []) ++ [')']
     else [])) ++
  (if truthyOpt p.2.jira_summary then
    String.toList ": " ++ (p.2.jira_summary.getD []).take 50
   else [])

/-- `DataPreprocessor.structure_for_ai`. -/
def structureForAI (correlatedData : CorrMap) (notes : Str)
    (dateRange : PyDate × PyDate) : Str :=
  joinNl
    ([String.toList "=== TIMEFRAME ===",
      String.toList "Period: " ++ fmtYMD dateRange.1 ++ String.toList " to " ++
        fmtYMD dateRange.2] ++
     (if dateRange.1 ≠ dateRange.2 then
        [String.toList "Yesterday: " ++ fmtAB dateRange.1,
         String.toList "Today: " ++ fmtAB dateRange.2]
      else []) ++
     [[]] ++
     (if correlatedData ≠ [] then
        String.toList "=== TICKET WORK ===" ::
        ((if (partitionTickets correlatedData).1 ≠ [] then
            String.toList "ACTIVELY WORKED ON:" ::
            (sortByKey (partitionTickets correlatedData).1).bind activeLines
          else []) ++
         (if (partitionTickets correlatedData).2 ≠ [] then
            ('\n' :: String.toList "ALSO TRACKING:") ::
            (sortByKey (partitionTickets correlatedData).2).map mentionedLine
          else []))
      else []) ++
     [[]] ++
     [String.toList "=== WORK NOTES ==="] ++
     [cleanNotes notes (correlatedData.map Prod.fst)])


/-! ### Substring-test lemmas -/

theorem containsSub_iff {n h : Str} : containsSub n h = true ↔ n <:+: h := by
  induction h with
  | nil =>
    rw [containsSub, List.isEmpty_iff]
    exact ⟨fun hh => hh ▸ List.infix_refl [], fun hh => List.infix_nil.mp hh⟩
  | cons c t ih =>
    rw [containsSub, Bool.or_eq_true, ih, List.isPrefixOf_iff_prefix,
      List.infix_cons_iff]

theorem infix_append_right {s b : Str} (a : Str) (h : s <:+: b) : s <:+: a ++ b := by
  rcases h with ⟨p, q, hpq⟩
  exact ⟨a ++ p, q, by rw [← hpq]; simp⟩

theorem infix_append_left {s a : Str} (b : Str) (h : s <:+: a) : s <:+: a ++ b := by
  rcases h with ⟨p, q, hpq⟩
  exact ⟨p, q ++ b, by rw [← hpq]; simp⟩

theorem containsSub_append_right {s b : Str} (a : Str)
    (h : containsSub s b = true) : containsSub s (a ++ b) = true :=
  containsSub_iff.mpr (infix_append_right a (containsSub_iff.mp h))

theorem containsSub_append_left {s a : Str} (b : Str)
    (h : containsSub s a = true) : containsSub s (a ++ b) = true :=
  containsSub_iff.mpr (infix_append_left b (containsSub_iff.mp h))

theorem containsSub_self (s : Str) : containsSub s s = true :=
  containsSub_iff.mpr (List.infix_refl s)

theorem prefix_joinNl (x : Str) (rest : List Str) : x <+: joinNl (x :: rest) := by
  rcases rest with _ | ⟨r, rs⟩
  · exact List.prefix_refl x
  · rw [joinNl]
    exact ⟨'\n' :: joinNl (r :: rs), rfl⟩

theorem infix_joinNl_of_mem {a : Str} {ls : List Str} (h : a ∈ ls) :
    a <:+: joinNl ls := by
  induction ls with
  | nil => exact absurd h (List.not_mem_nil a)
  | cons l rest ih =>
    rcases List.mem_cons.mp h with rfl | hmem
    · exact (prefix_joinNl a rest).isInfix
    · rcases rest with _ | ⟨r, rs⟩
      · exact absurd hmem (List.not_mem_nil a)
      · rw [joinNl]
        refine infix_append_right l ?_
        rcases ih hmem with ⟨p, q, hpq⟩
        exact ⟨'\n' :: p, q, by rw [← hpq]; simp⟩

/-! ### `DataAggregator` (orchestration): collaborator outcomes as data

The aggregator's collaborators (notes files, tracker client, git subprocess,
timewarrior subprocess, GitHub client) perform I/O; they are modelled by the
outcome each call produces during one run, which is all the aggregation code
observes. -/

def isLeap (y : Nat) : Bool := (y % 4 = 0 ∧ y % 100 ≠ 0) ∨ y % 400 = 0

def daysInMonth (y m : Nat) : Nat :=
  match m with
  | 2 => if isLeap y then 29 else 28
  | 4 => 30
  | 6 => 30
  | 9 => 30
  | 11 => 30
  | _ => 31

def prevDay (d : PyDate) : PyDate :=
  if 1 < d.day then ⟨d.year, d.month, d.day - 1⟩
  else if d.month = 1 then ⟨d.year - 1, 12, 31⟩
  else ⟨d.year, d.month - 1, daysInMonth d.year (d.month - 1)⟩

def subDays (d : PyDate) : Nat → PyDate
  | 0 => d
  | n + 1 => subDays (prevDay d) n

/-- `today - timedelta(days=3)` when today is Monday, else one day back
(`DataAggregator.get_date_range` and `get_notes_content`). -/
def prevWorkday (today : PyDate) : PyDate :=
  if pyWeekday today = 0 then subDays today 3 else subDays today 1

/-- One git repository directory as the aggregator observes it: its path
string, whether `os.path.isdir` holds, and the outcome of the `git log`
subprocess (`error` models `CalledProcessError`). -/
structure GitDir where
  name : Str
  isDir : Bool
  run : Except Unit Str

/-- The collaborator outcomes and configuration visible to one aggregation
run. -/
structure AggEnv where
  today : PyDate
  notesFs : PyDate → Option Str
  jira : Option (Except Str (List JiraTicket))
  formatTickets : List JiraTicket → Str
  gitAuthor : Str
  gitDirs : List GitDir
  timew : Except Unit Str
  githubUsername : Str
  github : Option (Except Str Str)

/-- `DataAggregator.get_notes_content`: absent files contribute nothing (no
placeholder). -/
def getNotesContent (today : PyDate) (fs : PyDate → Option Str) : Str :=
  (match fs today with
   | some c => String.toList "Notes for " ++ fmtYMD today ++ String.toList ":\n" ++
       c ++ String.toList "\n\n"
   | none => []) ++
  (match fs (prevWorkday today) with
   | some c => String.toList "Notes for " ++ fmtYMD (prevWorkday today) ++
       String.toList ":\n" ++ c ++ String.toList "\n\n"
   | none => [])

/-- `DataAggregator.get_git_history`. -/
def getGitHistory (author : Str) (dirs : List GitDir) : Str :=
  if dirs.isEmpty then String.toList "No Git directories configured."
  else
    dirs.foldl
      (fun acc d =>
        if d.isDir then
          match d.run with
          | .error _ => acc
          | .ok out =>
            if out ≠ [] then
              acc ++ '\n' :: (String.toList "Folder: " ++ d.name ++ ['\n']) ++
                (splitNl (pyStrip out)).foldl
                  (fun a commit => a ++ '-' :: ' ' :: commit ++ ['\n']) []
            else acc
        else acc)
      (String.toList "Include this Git history:\n")

/-- `DataAggregator.get_timewarrior_summary`. -/
def getTimewarriorSummary (r : Except Unit Str) : Str :=
  match r with
  | .ok out => String.toList "Timewarrior Summary for yesterday:\n" ++ pyStrip out
  | .error _ => String.toList "No timewarrior summary available."

/-- `DataAggregator.get_jira_tickets` (flat mode): placeholder sentences for
an absent client and for a raised exception. -/
def getJiraTickets (jira : Option (Except Str (List JiraTicket)))
    (format : List JiraTicket → Str) : Str :=
  match jira with
  | none => String.toList "Jira client not configured."
  | some (.error e) => String.toList "Error fetching Jira tickets: " ++ e
  | some (.ok ts) => format ts

/-- `DataAggregator.get_github_events`. -/
def getGithubEvents (github : Option (Except Str Str)) : Str :=
  match github with
  | none => String.toList "GitHub client not configured."
  | some (.error e) => String.toList "Error fetching GitHub events: " ++ e
  | some (.ok s) => s

/-- `DataAggregator.get_date_range`. -/
def getDateRange (today : PyDate) : PyDate × PyDate := (prevWorkday today, today)

/-- `DataAggregator.aggregate_all_data` (flat concatenation mode). -/
def aggregateAllData (env : AggEnv) : Str :=
  (if getNotesContent env.today env.notesFs ≠ [] then
     getNotesContent env.today env.notesFs
   else []) ++
  (getJiraTickets env.jira env.formatTickets ++ ['\n']) ++
  (getGitHistory env.gitAuthor env.gitDirs ++ ['\n']) ++
  (getTimewarriorSummary env.timew ++ ['\n']) ++
  (if env.githubUsername ≠ [] ∧ env.github.isSome then
     getGithubEvents env.github ++ ['\n']
   else [])

/-- `DataAggregator.aggregate_all_data_structured`: a failing tracker client
contributes an empty ticket list (`except Exception: pass`); unavailable git
or time-tracking data is omitted from `=== ADDITIONAL DATA ===`. -/
def aggregateAllDataStructured (env : AggEnv) : Str :=
  structureForAI
      (correlateTicketData (getNotesContent env.today env.notesFs)
        (match env.jira with
         | some (.ok ts) => ts
         | _ => [])
        (getGitHistory env.gitAuthor env.gitDirs)
        (getTimewarriorSummary env.timew))
      (getNotesContent env.today env.notesFs)
      (getDateRange env.today) ++
  String.toList "\n\n=== ADDITIONAL DATA ===\n" ++
  (if getGitHistory env.gitAuthor env.gitDirs ≠ [] ∧
      containsSub (String.toList "No Git directories configured")
        (getGitHistory env.gitAuthor env.gitDirs) = false then
     String.toList "\nGIT ACTIVITY:\n" ++
       deduplicateContent (getGitHistory env.gitAuthor env.gitDirs)
   else []) ++
  (if getTimewarriorSummary env.timew ≠ [] ∧
      containsSub (String.toList "No timewarrior summary")
        (getTimewarriorSummary env.timew) = false then
     String.toList "\n\nTIME TRACKING:\n" ++ getTimewarriorSummary env.timew
   else [])


set_option maxRecDepth 10000 in
/-- **C2**: on the concrete inputs notes = `"Worked on INFRA-1 today"`, one
tracker record (`INFRA-1`, status `In Progress`, summary `Fix bug`), commit
log `"abc123 2024-01-01 | fix INFRA-1 bug"`, empty time-tracking text and
date range 2024-01-01 .. 2024-01-02, correlating and then structuring yields
a document that contains the `=== TICKET WORK ===` header, an
`ACTIVELY WORKED ON:` block for `INFRA-1` with `Summary: Fix bug`,
`Status: In Progress` and one commit line, and no `ALSO TRACKING:` section. -/
theorem C2_end_to_end :
    containsSub (String.toList "=== TICKET WORK ===")
      (structureForAI
        (correlateTicketData (String.toList "Worked on INFRA-1 today")
          [{ key := String.toList "INFRA-1",
             fields := { statusName := some (String.toList "In Progress"),
                         summary := some (String.toList "Fix bug") } }]
          (String.toList "abc123 2024-01-01 | fix INFRA-1 bug")
          (String.toList ""))
        (String.toList "Worked on INFRA-1 today")
        (⟨2024, 1, 1⟩, ⟨2024, 1, 2⟩)) = true ∧
    containsSub (String.toList "ACTIVELY WORKED ON:")
      (structureForAI
        (correlateTicketData (String.toList "Worked on INFRA-1 today")
          [{ key := String.toList "INFRA-1",
             fields := { statusName := some (String.toList "In Progress"),
                         summary := some (String.toList "Fix bug") } }]
          (String.toList "abc123 2024-01-01 | fix INFRA-1 bug")
          (String.toList ""))
        (String.toList "Worked on INFRA-1 today")
        (⟨2024, 1, 1⟩, ⟨2024, 1, 2⟩)) = true ∧
    containsSub (String.toList "\n• INFRA-1\n  Summary: Fix bug\n  Status: In Progress")
      (structureForAI
        (correlateTicketData (String.toList "Worked on INFRA-1 today")
          [{ key := String.toList "INFRA-1",
             fields := { statusName := some (String.toList "In Progress"),
                         summary := some (String.toList "Fix bug") } }]
          (String.toList "abc123 2024-01-01 | fix INFRA-1 bug")
          (String.toList ""))
        (String.toList "Worked on INFRA-1 today")
        (⟨2024, 1, 1⟩, ⟨2024, 1, 2⟩)) = true ∧
    containsSub (String.toList
        "  Commits: 1 commit(s)\n    - abc123 2024-01-01 | fix INFRA-1 bug")
      (structureForAI
        (correlateTicketData (String.toList "Worked on INFRA-1 today")
          [{ key := String.toList "INFRA-1",
             fields := { statusName := some (String.toList "In Progress"),
                         summary := some (String.toList "Fix bug") } }]
          (String.toList "abc123 2024-01-01 | fix INFRA-1 bug")
          (String.toList ""))
        (String.toList "Worked on INFRA-1 today")
        (⟨2024, 1, 1⟩, ⟨2024, 1, 2⟩)) = true ∧
    containsSub (String.toList "ALSO TRACKING:")
      (structureForAI
        (correlateTicketData (String.toList "Worked on INFRA-1 today")
          [{ key := String.toList "INFRA-1",
             fields := { statusName := some (String.toList "In Progress"),
                         summary := some (String.toList "Fix bug") } }]
          (String.toList "abc123 2024-01-01 | fix INFRA-1 bug")
          (String.toList ""))
        (String.toList "Worked on INFRA-1 today")
        (⟨2024, 1, 1⟩, ⟨2024, 1, 2⟩)) = false := by
  decide


/-! ### C4: the context windower -/

/-- Modelled from the claim as stated for **C4**: the substring spanning the
window, clipped to the text bounds, with ellipses on clipped-short sides —
and no stripping of surrounding whitespace. -/
def extractContextSpec (text tok : Str) (windowSize : Nat := 100) : Str :=
  match findWordCI text tok with
  | some i =>
    let start := i - windowSize
    let stop := min text.length (i + tok.length + windowSize)
    let context := (text.take stop).drop start
    let context2 := if 0 < start then '.' :: '.' :: '.' :: context else context
    if stop < text.length then context2 ++ ['.', '.', '.'] else context2
  | none => []

/-- **C4** counterexample to the claim as stated: on `" INFRA-1 "` the code
strips the surrounding whitespace of the windowed substring before attaching
ellipses, so it returns `"INFRA-1"` while the claim predicts `" INFRA-1 "`. -/
theorem C4_counterexample :
    extractContext (String.toList " INFRA-1 ") (String.toList "INFRA-1") 100 =
      String.toList "INFRA-1" ∧
    extractContextSpec (String.toList " INFRA-1 ") (String.toList "INFRA-1") 100 =
      String.toList " INFRA-1 " ∧
    extractContext (String.toList " INFRA-1 ") (String.toList "INFRA-1") 100 ≠
      extractContextSpec (String.toList " INFRA-1 ") (String.toList "INFRA-1") 100 := by
  decide

/-- **C4** (amended): `_extract_context` locates the first case-insensitive
whole-word occurrence of the identifier; if there is none it returns the
empty string; otherwise it returns the substring spanning `windowSize`
characters before the match start and after the match end, clipped to the
text bounds and **stripped of leading/trailing whitespace**, with a literal
`...` prefix iff the window did not reach the true start of the text and a
`...` suffix iff it did not reach the true end. -/
theorem C4_extract_context (text tok : Str) (windowSize : Nat) :
    (findWordCI text tok = none → extractContext text tok windowSize = []) ∧
    (∀ i, findWordCI text tok = some i →
      extractContext text tok windowSize =
        (if 0 < i - windowSize then String.toList "..." else []) ++
        pyStrip ((text.take (min text.length (i + tok.length + windowSize))).drop
          (i - windowSize)) ++
        (if min text.length (i + tok.length + windowSize) < text.length then
          String.toList "..." else [])) := by
  constructor
  · intro h
    rw [extractContext, h]
  · intro i h
    rw [extractContext, h]
    simp only []
    by_cases h1 : 0 < i - windowSize
    · by_cases h2 : min text.length (i + tok.length + windowSize) < text.length
      · rw [if_pos h1, if_pos h2, if_pos h1, if_pos h2]
        simp
      · rw [if_pos h1, if_neg h2, if_pos h1, if_neg h2]
        simp
    · by_cases h2 : min text.length (i + tok.length + windowSize) < text.length
      · rw [if_neg h1, if_pos h2, if_neg h1, if_pos h2]
        simp
      · rw [if_neg h1, if_neg h2, if_neg h1, if_neg h2]
        simp

/-- Witness for **C4** at `" INFRA-1 "` (match at position 1, both window
sides reach the text bounds, so no ellipsis on either side). -/
theorem C4_witness :
    extractContext (String.toList " INFRA-1 ") (String.toList "INFRA-1") 100 =
      (if 0 < 1 - 100 then String.toList "..." else []) ++
      pyStrip (((String.toList " INFRA-1 ").take
        (min (String.toList " INFRA-1 ").length (1 + (String.toList "INFRA-1").length + 100))).drop
        (1 - 100)) ++
      (if min (String.toList " INFRA-1 ").length
          (1 + (String.toList "INFRA-1").length + 100) <
          (String.toList " INFRA-1 ").length then String.toList "..." else []) :=
  (C4_extract_context (String.toList " INFRA-1 ") (String.toList "INFRA-1") 100).2 1
    (by decide)

/-! ### C3: the active / mentioned-only partition -/

def keysOf (m : CorrMap) : List Str := m.map Prod.fst

theorem mem_keys_updateEntry (m : CorrMap) (k : Str) (f : Entry → Entry) (k2 : Str) :
    k2 ∈ keysOf (updateEntry m k f) ↔ k2 ∈ keysOf m ∨ k2 = k := by
  induction m with
  | nil =>
    rw [updateEntry]
    simp only [keysOf, List.map_cons, List.map_nil, List.mem_cons,
      List.not_mem_nil]
    tauto
  | cons p rest ih =>
    obtain ⟨k3, e⟩ := p
    rw [updateEntry]
    by_cases hk : k3 = k
    · subst hk
      rw [if_pos rfl]
      simp only [keysOf, List.map_cons, List.mem_cons]
      tauto
    · rw [if_neg hk]
      simp only [keysOf, List.map_cons, List.mem_cons] at ih ⊢
      rw [ih]
      tauto

theorem keys_nodup_updateEntry {m : CorrMap} (k : Str) (f : Entry → Entry)
    (h : (keysOf m).Nodup) : (keysOf (updateEntry m k f)).Nodup := by
  induction m with
  | nil =>
    rw [updateEntry]
    simp only [keysOf, List.map_cons, List.map_nil]
    exact List.nodup_singleton _
  | cons p rest ih =>
    obtain ⟨k3, e⟩ := p
    rw [updateEntry]
    by_cases hk : k3 = k
    · subst hk
      rw [if_pos rfl]
      simp only [keysOf, List.map_cons, List.nodup_cons] at h ⊢
      exact h
    · rw [if_neg hk]
      simp only [keysOf, List.map_cons, List.nodup_cons] at h ⊢
      refine ⟨?_, ih h.2⟩
      intro hmem
      rcases (mem_keys_updateEntry rest k f k3).mp hmem with hmem | hmem
      · exact h.1 hmem
      · exact hk hmem

theorem foldl_preserves {α : Type} (step : CorrMap → α → CorrMap)
    (P : CorrMap → Prop) (hstep : ∀ m x, P m → P (step m x)) :
    ∀ (l : List α) (m : CorrMap), P m → P (l.foldl step m) := by
  intro l
  induction l with
  | nil => intro m hm; exact hm
  | cons x l ih => intro m hm; exact ih (step m x) (hstep m x hm)

theorem correlate_keys_nodup (notes : Str) (jiraTickets : List JiraTicket)
    (git timew : Str) :
    (keysOf (correlateTicketData notes jiraTickets git timew)).Nodup := by
  rw [correlateTicketData]
  apply foldl_preserves _ (fun m => (keysOf m).Nodup)
  · intro m x hm
    dsimp only
    split
    · exact keys_nodup_updateEntry _ _ (keys_nodup_updateEntry _ _ hm)
    · exact keys_nodup_updateEntry _ _ hm
  apply foldl_preserves _ (fun m => (keysOf m).Nodup)
  · intro m x hm
    dsimp only
    exact keys_nodup_updateEntry _ _ hm
  apply foldl_preserves _ (fun m => (keysOf m).Nodup)
  · intro m x hm
    dsimp only
    split
    · exact keys_nodup_updateEntry _ _ hm
    · exact hm
  apply foldl_preserves _ (fun m => (keysOf m).Nodup)
  · intro m x hm
    dsimp only
    split
    · exact keys_nodup_updateEntry _ _ (keys_nodup_updateEntry _ _ hm)
    · exact keys_nodup_updateEntry _ _ hm
  exact List.nodup_nil

theorem isActive_iff (e : Entry) :
    isActive e = true ↔
      (e.git_commits ≠ [] ∨ e.time_tracked = true ∨ e.mentioned_in_notes = true) := by
  rw [isActive]
  simp [List.isEmpty_iff, or_assoc]

/-- **C3**: for every mapping produced by `correlate_ticket_data`, the
Structurer's partition into active and mentioned-only entries is exhaustive
and disjoint, an entry is active iff it has at least one commit, is
time-tracked, or is mentioned in notes, and the mapping's keys are distinct,
so every key appears in exactly one of the two groups. -/
theorem C3_partition (notes : Str) (jiraTickets : List JiraTicket) (git timew : Str) :
    (∀ p, p ∈ correlateTicketData notes jiraTickets git timew →
      (p ∈ (partitionTickets (correlateTicketData notes jiraTickets git timew)).1 ∨
        p ∈ (partitionTickets (correlateTicketData notes jiraTickets git timew)).2) ∧
      ¬(p ∈ (partitionTickets (correlateTicketData notes jiraTickets git timew)).1 ∧
        p ∈ (partitionTickets (correlateTicketData notes jiraTickets git timew)).2) ∧
      (p ∈ (partitionTickets (correlateTicketData notes jiraTickets git timew)).1 ↔
        (p.2.git_commits ≠ [] ∨ p.2.time_tracked = true ∨
          p.2.mentioned_in_notes = true))) ∧
    (keysOf (correlateTicketData notes jiraTickets git timew)).Nodup := by
  refine ⟨?_, correlate_keys_nodup notes jiraTickets git timew⟩
  intro p hp
  rw [partitionTickets]
  simp only [List.mem_filter]
  refine ⟨?_, ?_, ?_⟩
  · rcases ha : isActive p.2
    · right
      exact ⟨hp, rfl⟩
    · left
      exact ⟨hp, rfl⟩
  · rintro ⟨⟨-, h1⟩, ⟨-, h2⟩⟩
    rw [h1] at h2
    simp at h2
  · rw [← isActive_iff p.2]
    constructor
    · rintro ⟨-, h1⟩; exact h1
    · intro h1; exact ⟨hp, h1⟩

/-- The entry produced for `INFRA-1` in the C3 witness run. -/
def c3WitnessEntry : Entry :=
  { mentioned_in_notes := true, jira_status := none, jira_summary := none,
    git_commits := [], time_tracked := false, time_duration := none,
    contexts := [(String.toList "notes", String.toList "INFRA-1 done")] }

/-- Witness for **C3** at notes `"INFRA-1 done"` with no tracker records,
commit log or time-tracking data. -/
theorem C3_witness :
    ((String.toList "INFRA-1", c3WitnessEntry) ∈
        (partitionTickets (correlateTicketData (String.toList "INFRA-1 done") [] [] [])).1 ∨
      (String.toList "INFRA-1", c3WitnessEntry) ∈
        (partitionTickets (correlateTicketData (String.toList "INFRA-1 done") [] [] [])).2) ∧
    (keysOf (correlateTicketData (String.toList "INFRA-1 done") [] [] [])).Nodup :=
  ⟨((C3_partition (String.toList "INFRA-1 done") [] [] []).1
      (String.toList "INFRA-1", c3WitnessEntry) (by decide)).1,
    (C3_partition (String.toList "INFRA-1 done") [] [] []).2⟩


/-! ### C8: tracker keys are used verbatim -/

theorem lookupEntry_updateEntry (m : CorrMap) (k : Str) (f : Entry → Entry) (k2 : Str) :
    lookupEntry (updateEntry m k f) k2 =
      if k2 = k then some (f ((lookupEntry m k).getD defaultEntry))
      else lookupEntry m k2 := by
  induction m with
  | nil =>
    by_cases hk : k2 = k
    · subst hk
      simp [updateEntry, lookupEntry]
    · simp [updateEntry, lookupEntry, hk, Ne.symm hk]
  | cons p rest ih =>
    obtain ⟨k3, e⟩ := p
    by_cases hk3 : k3 = k
    · subst hk3
      by_cases hk2 : k2 = k3
      · subst hk2
        simp [updateEntry, lookupEntry]
      · simp [updateEntry, lookupEntry, hk2, Ne.symm hk2]
    · by_cases hk2 : k2 = k3
      · subst hk2
        simp [updateEntry, lookupEntry, hk3]
      · simp [updateEntry, lookupEntry, hk3, hk2, Ne.symm hk2, ih]

/-- The status/summary view of a lookup result; an absent entry and a fresh
default entry agree on it. -/
def jiraFieldsOf : Option Entry → Option Str × Option Str
  | none => (none, none)
  | some e => (e.jira_status, e.jira_summary)

theorem jiraFields_updateEntry (m : CorrMap) (k : Str) (f : Entry → Entry) (k2 : Str)
    (hf : ∀ e, (f e).jira_status = e.jira_status ∧ (f e).jira_summary = e.jira_summary) :
    jiraFieldsOf (lookupEntry (updateEntry m k f) k2) =
      jiraFieldsOf (lookupEntry m k2) := by
  rw [lookupEntry_updateEntry]
  by_cases hk : k2 = k
  · subst hk
    rw [if_pos rfl]
    cases hl : lookupEntry m k2 with
    | none =>
      simp only [Option.getD_none, jiraFieldsOf]
      rw [(hf defaultEntry).1, (hf defaultEntry).2]
      rfl
    | some e =>
      simp only [Option.getD_some, jiraFieldsOf]
      rw [(hf e).1, (hf e).2]
  · rw [if_neg hk]

theorem isSome_lookup_updateEntry (m : CorrMap) (k : Str) (f : Entry → Entry) (k2 : Str)
    (h : (lookupEntry m k2).isSome = true) :
    (lookupEntry (updateEntry m k f) k2).isSome = true := by
  rw [lookupEntry_updateEntry]
  by_cases hk : k2 = k
  · rw [if_pos hk]; rfl
  · rw [if_neg hk]; exact h

theorem jiraFields_applyGit (git : Str) (m : CorrMap) (k2 : Str) :
    jiraFieldsOf (lookupEntry (applyGit git m) k2) = jiraFieldsOf (lookupEntry m k2) := by
  rw [applyGit]
  generalize extractTicketIds git = ts
  induction ts generalizing m with
  | nil => rfl
  | cons t ts ih =>
    rw [List.foldl_cons]
    rw [ih]
    exact jiraFields_updateEntry m t _ k2 (fun e => ⟨rfl, rfl⟩)

theorem jiraFields_applyTimew (timew : Str) (m : CorrMap) (k2 : Str) :
    jiraFieldsOf (lookupEntry (applyTimew timew m) k2) =
      jiraFieldsOf (lookupEntry m k2) := by
  rw [applyTimew]
  generalize extractTicketIds timew = ts
  induction ts generalizing m with
  | nil => rfl
  | cons t ts ih =>
    rw [List.foldl_cons, ih]
    dsimp only
    cases hd : extractTimeDuration timew t with
    | none =>
      exact jiraFields_updateEntry m t _ k2 (fun e => ⟨rfl, rfl⟩)
    | some d =>
      rw [jiraFields_updateEntry
        (updateEntry m t (fun e => { e with time_tracked := true })) t
        (fun e => { e with time_duration := some d }) k2 (fun e => ⟨rfl, rfl⟩)]
      exact jiraFields_updateEntry m t
        (fun e => { e with time_tracked := true }) k2 (fun e => ⟨rfl, rfl⟩)

theorem isSome_lookup_applyGit (git : Str) (m : CorrMap) (k2 : Str)
    (h : (lookupEntry m k2).isSome = true) :
    (lookupEntry (applyGit git m) k2).isSome = true := by
  rw [applyGit]
  generalize extractTicketIds git = ts
  induction ts generalizing m with
  | nil => exact h
  | cons t ts ih =>
    rw [List.foldl_cons]
    exact ih _ (isSome_lookup_updateEntry m t _ k2 h)

theorem isSome_lookup_applyTimew (timew : Str) (m : CorrMap) (k2 : Str)
    (h : (lookupEntry m k2).isSome = true) :
    (lookupEntry (applyTimew timew m) k2).isSome = true := by
  rw [applyTimew]
  generalize extractTicketIds timew = ts
  induction ts generalizing m with
  | nil => exact h
  | cons t ts ih =>
    rw [List.foldl_cons]
    refine ih _ ?_
    dsimp only
    cases hd : extractTimeDuration timew t with
    | none => exact isSome_lookup_updateEntry m t _ k2 h
    | some d =>
      exact isSome_lookup_updateEntry _ t _ k2 (isSome_lookup_updateEntry m t _ k2 h)

theorem lookup_applyJira_skip (j : List JiraTicket) (k : Str)
    (hk : ∀ r ∈ j, r.key ≠ k) :
    ∀ m, lookupEntry (applyJira j m) k = lookupEntry m k := by
  induction j with
  | nil => intro m; rfl
  | cons x j ih =>
    intro m
    rw [applyJira, List.foldl_cons, ← applyJira]
    rw [ih (fun r hr => hk r (List.mem_cons_of_mem _ hr))]
    split
    · rw [lookupEntry_updateEntry,
        if_neg (fun h : k = x.key => hk x (List.mem_cons_self _ _) h.symm)]
    · rfl

theorem applyJira_lookup (j : List JiraTicket) :
    ∀ (m : CorrMap) (r : JiraTicket), r ∈ j → r.key ≠ [] →
      (j.map JiraTicket.key).Nodup →
      ∃ e, lookupEntry (applyJira j m) r.key = some e ∧
        e.jira_status = r.fields.statusName ∧ e.jira_summary = r.fields.summary := by
  induction j with
  | nil => intro m r hr; exact absurd hr (List.not_mem_nil r)
  | cons x j ih =>
    intro m r hr hk hnd
    rw [applyJira, List.foldl_cons, ← applyJira]
    rcases List.mem_cons.mp hr with rfl | hr2
    · have hstep : lookupEntry
          (if r.key ≠ [] then
            updateEntry m r.key
              (fun e => { e with jira_status := r.fields.statusName,
                                 jira_summary := r.fields.summary })
          else m) r.key =
          some ({ ((lookupEntry m r.key).getD defaultEntry) with
                  jira_status := r.fields.statusName,
                  jira_summary := r.fields.summary }) := by
        rw [if_pos hk, lookupEntry_updateEntry, if_pos rfl]
      have hskip : ∀ r2 ∈ j, r2.key ≠ r.key := by
        intro r2 hr2 heq
        simp only [List.map_cons, List.nodup_cons] at hnd
        exact hnd.1 (heq ▸ List.mem_map_of_mem JiraTicket.key hr2)
      rw [lookup_applyJira_skip j r.key hskip, hstep]
      exact ⟨_, rfl, rfl, rfl⟩
    · refine ih _ r hr2 hk ?_
      simp only [List.map_cons, List.nodup_cons] at hnd
      exact hnd.2


theorem mem_keys_of_lookup_isSome {m : CorrMap} {k : Str}
    (h : (lookupEntry m k).isSome = true) : k ∈ keysOf m := by
  induction m with
  | nil => simp [lookupEntry] at h
  | cons p rest ih =>
    obtain ⟨k2, e⟩ := p
    rw [lookupEntry] at h
    by_cases hk : k2 = k
    · subst hk
      exact List.mem_cons_self _ _
    · rw [if_neg hk] at h
      exact List.mem_cons_of_mem _ (ih h)

theorem keys_mono_foldl {α : Type} (step : CorrMap → α → CorrMap)
    (hmono : ∀ m x k, k ∈ keysOf m → k ∈ keysOf (step m x)) :
    ∀ (l : List α) (m : CorrMap) (k : Str),
      k ∈ keysOf m → k ∈ keysOf (l.foldl step m) := by
  intro l
  induction l with
  | nil => intro m k hk; exact hk
  | cons x l ih => intro m k hk; exact ih (step m x) k (hmono m x k hk)

theorem key_in_foldl {α : Type} (step : CorrMap → α → CorrMap) (keyf : α → Str)
    (hself : ∀ m x, keyf x ∈ keysOf (step m x))
    (hmono : ∀ m x k, k ∈ keysOf m → k ∈ keysOf (step m x)) :
    ∀ (l : List α) (m : CorrMap) (x : α), x ∈ l →
      keyf x ∈ keysOf (l.foldl step m) := by
  intro l
  induction l with
  | nil => intro m x hx; exact absurd hx (List.not_mem_nil x)
  | cons y l ih =>
    intro m x hx
    rcases List.mem_cons.mp hx with rfl | hx
    · rw [List.foldl_cons]
      exact keys_mono_foldl step hmono l (step m x) (keyf x) (hself m x)
    · rw [List.foldl_cons]
      exact ih (step m y) x hx

theorem keys_mono_applyNotes (notes : Str) (m : CorrMap) (k : Str)
    (h : k ∈ keysOf m) : k ∈ keysOf (applyNotes notes m) := by
  rw [applyNotes]
  refine keys_mono_foldl _ ?_ _ m k h
  intro m2 x k2 hk2
  dsimp only
  split
  · exact (mem_keys_updateEntry _ _ _ _).mpr
      (Or.inl ((mem_keys_updateEntry _ _ _ _).mpr (Or.inl hk2)))
  · exact (mem_keys_updateEntry _ _ _ _).mpr (Or.inl hk2)

theorem keys_mono_applyJira (j : List JiraTicket) (m : CorrMap) (k : Str)
    (h : k ∈ keysOf m) : k ∈ keysOf (applyJira j m) := by
  rw [applyJira]
  refine keys_mono_foldl _ ?_ _ m k h
  intro m2 x k2 hk2
  dsimp only
  split
  · exact (mem_keys_updateEntry _ _ _ _).mpr (Or.inl hk2)
  · exact hk2

theorem keys_mono_applyGit (git : Str) (m : CorrMap) (k : Str)
    (h : k ∈ keysOf m) : k ∈ keysOf (applyGit git m) := by
  rw [applyGit]
  refine keys_mono_foldl _ ?_ _ m k h
  intro m2 x k2 hk2
  exact (mem_keys_updateEntry _ _ _ _).mpr (Or.inl hk2)

theorem keys_mono_applyTimew (timew : Str) (m : CorrMap) (k : Str)
    (h : k ∈ keysOf m) : k ∈ keysOf (applyTimew timew m) := by
  rw [applyTimew]
  refine keys_mono_foldl _ ?_ _ m k h
  intro m2 x k2 hk2
  dsimp only
  split
  · exact (mem_keys_updateEntry _ _ _ _).mpr
      (Or.inl ((mem_keys_updateEntry _ _ _ _).mpr (Or.inl hk2)))
  · exact (mem_keys_updateEntry _ _ _ _).mpr (Or.inl hk2)

theorem key_in_applyNotes {notes : Str} {t : Str} (m : CorrMap)
    (h : t ∈ extractTicketIds notes) : t ∈ keysOf (applyNotes notes m) := by
  rw [applyNotes]
  refine key_in_foldl _ (fun x => x) ?_ ?_ _ m t h
  · intro m2 x
    dsimp only
    split
    · exact (mem_keys_updateEntry _ _ _ _).mpr (Or.inr rfl)
    · exact (mem_keys_updateEntry _ _ _ _).mpr (Or.inr rfl)
  · intro m2 x k2 hk2
    dsimp only
    split
    · exact (mem_keys_updateEntry _ _ _ _).mpr
        (Or.inl ((mem_keys_updateEntry _ _ _ _).mpr (Or.inl hk2)))
    · exact (mem_keys_updateEntry _ _ _ _).mpr (Or.inl hk2)

theorem key_in_applyGit {git : Str} {t : Str} (m : CorrMap)
    (h : t ∈ extractTicketIds git) : t ∈ keysOf (applyGit git m) := by
  rw [applyGit]
  refine key_in_foldl _ (fun x => x) ?_ ?_ _ m t h
  · intro m2 x
    exact (mem_keys_updateEntry _ _ _ _).mpr (Or.inr rfl)
  · intro m2 x k2 hk2
    exact (mem_keys_updateEntry _ _ _ _).mpr (Or.inl hk2)

/-- **C8**: for every tracker record with a non-empty key, the correlator
uses that key verbatim (no re-extraction, no uppercasing) as the entry key
and sets that entry's status and summary from the record; consequently every
identifier extracted from notes or commits is also present as its own key, so
a tracker key whose casing differs from such an identifier yields two
distinct entries that are never merged. -/
theorem C8_tracker_keys_verbatim (notes : Str) (jiraTickets : List JiraTicket)
    (git timew : Str) (r : JiraTicket)
    (hr : r ∈ jiraTickets) (hk : r.key ≠ [])
    (hnd : (jiraTickets.map JiraTicket.key).Nodup) :
    (∃ e, lookupEntry (correlateTicketData notes jiraTickets git timew) r.key = some e ∧
        e.jira_status = r.fields.statusName ∧ e.jira_summary = r.fields.summary) ∧
    r.key ∈ keysOf (correlateTicketData notes jiraTickets git timew) ∧
    (∀ u, u ∈ extractTicketIds notes ∨ u ∈ extractTicketIds git →
      u ∈ keysOf (correlateTicketData notes jiraTickets git timew)) := by
  obtain ⟨e2, he2, hst, hsm⟩ :=
    applyJira_lookup jiraTickets (applyNotes notes []) r hr hk hnd
  have hsome2 : (lookupEntry (applyJira jiraTickets (applyNotes notes [])) r.key).isSome
      = true := by
    rw [he2]; rfl
  have hsome4 : (lookupEntry
      (applyTimew timew (applyGit git (applyJira jiraTickets (applyNotes notes []))))
      r.key).isSome = true :=
    isSome_lookup_applyTimew _ _ _ (isSome_lookup_applyGit _ _ _ hsome2)
  obtain ⟨e4, he4⟩ := Option.isSome_iff_exists.mp hsome4
  have hfields : jiraFieldsOf (lookupEntry
      (applyTimew timew (applyGit git (applyJira jiraTickets (applyNotes notes []))))
      r.key) = jiraFieldsOf (lookupEntry (applyJira jiraTickets (applyNotes notes []))
      r.key) := by
    rw [jiraFields_applyTimew, jiraFields_applyGit]
  rw [he4, he2] at hfields
  simp only [jiraFieldsOf, Prod.mk.injEq] at hfields
  refine ⟨⟨e4, ?_, ?_, ?_⟩, ?_, ?_⟩
  · rw [correlateTicketData]
    exact he4
  · rw [hfields.1]; exact hst
  · rw [hfields.2]; exact hsm
  · apply mem_keys_of_lookup_isSome
    rw [correlateTicketData, he4]
    rfl
  · intro u hu
    rw [correlateTicketData]
    rcases hu with hu | hu
    · exact keys_mono_applyTimew _ _ _ (keys_mono_applyGit _ _ _
        (keys_mono_applyJira _ _ _ (key_in_applyNotes [] hu)))
    · exact keys_mono_applyTimew _ _ _ (key_in_applyGit _ hu)

/-- The tracker record of the C8 witness: mixed-case key `Infra-1`. -/
def c8Ticket : JiraTicket :=
  { key := String.toList "Infra-1",
    fields := { statusName := some (String.toList "Open"),
                summary := some (String.toList "Fix it") } }

/-- Witness for **C8**: notes mention `INFRA-1`, the tracker supplies the
mixed-case key `Infra-1`; both keys end up in the mapping, unmerged. -/
theorem C8_witness :
    (∃ e, lookupEntry (correlateTicketData (String.toList "INFRA-1 x") [c8Ticket]
        (String.toList "") (String.toList "")) (String.toList "Infra-1") = some e ∧
      e.jira_status = some (String.toList "Open") ∧
      e.jira_summary = some (String.toList "Fix it")) ∧
    String.toList "Infra-1" ∈ keysOf (correlateTicketData (String.toList "INFRA-1 x")
      [c8Ticket] (String.toList "") (String.toList "")) ∧
    String.toList "INFRA-1" ∈ keysOf (correlateTicketData (String.toList "INFRA-1 x")
      [c8Ticket] (String.toList "") (String.toList "")) := by
  have h := C8_tracker_keys_verbatim (String.toList "INFRA-1 x") [c8Ticket]
    (String.toList "") (String.toList "") c8Ticket
    (List.mem_singleton.mpr rfl) (by decide) (by decide)
  exact ⟨h.1, h.2.1, h.2.2 (String.toList "INFRA-1") (Or.inl (by decide))⟩


/-! ### C7: time-tracking durations -/

/-- The claim's reading of `_extract_time_duration`: the mention test is
case-insensitive, like the Extractor that produced the identifier
(spec-worded variant, for comparison with `extractTimeDuration`). -/
def extractTimeDurationSpec (timewData tok : Str) : Option Str :=
  firstSome ((List.range (splitNl timewData).length).map
    (fun i =>
      if containsSub (tok.map asciiUpper) (((splitNl timewData).getD i []).map asciiUpper) then
        durationNear (splitNl timewData) i
      else none))

/-- Counterexample to **C7** as stated: in time-tracking text
`"infra-1 0:30"` the Extractor finds `INFRA-1` (case-insensitively), and a
clock token `0:30` sits on the very line that mentions the identifier, yet
the correlated entry gets `time_tracked = true` with `time_duration`
absent, because `_extract_time_duration` tests `ticket_id in line`
case-sensitively against the canonicalized (uppercased) identifier. -/
theorem C7_counterexample :
    (String.toList "INFRA-1") ∈ extractTicketIds (String.toList "infra-1 0:30") ∧
    extractTimeDurationSpec (String.toList "infra-1 0:30") (String.toList "INFRA-1")
      = some (String.toList "0:30") ∧
    extractTimeDuration (String.toList "infra-1 0:30") (String.toList "INFRA-1")
      = none ∧
    lookupEntry (correlateTicketData [] [] [] (String.toList "infra-1 0:30"))
        (String.toList "INFRA-1") =
      some { defaultEntry with time_tracked := true } := by
  decide

theorem lookup_some_mem {m : CorrMap} {k : Str} {e : Entry}
    (h : lookupEntry m k = some e) : (k, e) ∈ m := by
  induction m with
  | nil => simp [lookupEntry] at h
  | cons p rest ih =>
    obtain ⟨k2, e2⟩ := p
    rw [lookupEntry] at h
    by_cases hk : k2 = k
    · subst hk
      rw [if_pos rfl] at h
      injection h with h2
      subst h2
      exact List.mem_cons_self _ _
    · rw [if_neg hk] at h
      exact List.mem_cons_of_mem _ (ih h)

theorem updateEntry_preserves (P : Entry → Prop) (f : Entry → Entry) (k : Str)
    (hf : ∀ e, P e → P (f e)) (hd : P defaultEntry) :
    ∀ (m : CorrMap), (∀ p, p ∈ m → P p.2) → ∀ p, p ∈ updateEntry m k f → P p.2 := by
  intro m
  induction m with
  | nil =>
    intro _ p hp
    rw [updateEntry] at hp
    rcases List.mem_singleton.mp hp with rfl
    exact hf _ hd
  | cons q rest ih =>
    intro hm p hp
    obtain ⟨k2, e⟩ := q
    rw [updateEntry] at hp
    by_cases hk : k2 = k
    · rw [if_pos hk] at hp
      rcases List.mem_cons.mp hp with rfl | hp
      · exact hf _ (hm (k2, e) (List.mem_cons_self _ _))
      · exact hm p (List.mem_cons_of_mem _ hp)
    · rw [if_neg hk] at hp
      rcases List.mem_cons.mp hp with rfl | hp
      · exact hm (k2, e) (List.mem_cons_self _ _)
      · exact ih (fun q hq => hm q (List.mem_cons_of_mem _ hq)) p hp

/-- Before the time-tracking phase runs, no entry carries a duration. -/
theorem td_none_pre (notes : Str) (j : List JiraTicket) (git : Str) :
    ∀ p, p ∈ applyGit git (applyJira j (applyNotes notes [])) →
      p.2.time_duration = none := by
  rw [applyGit]
  apply foldl_preserves _ (fun m => ∀ p, p ∈ m → p.2.time_duration = none)
  · intro m x hm
    dsimp only
    refine updateEntry_preserves (fun e => e.time_duration = none) _ _ ?_ rfl m hm
    intro e he
    exact he
  rw [applyJira]
  apply foldl_preserves _ (fun m => ∀ p, p ∈ m → p.2.time_duration = none)
  · intro m x hm
    dsimp only
    split
    · refine updateEntry_preserves (fun e => e.time_duration = none) _ _ ?_ rfl m hm
      intro e he
      exact he
    · exact hm
  rw [applyNotes]
  apply foldl_preserves _ (fun m => ∀ p, p ∈ m → p.2.time_duration = none)
  · intro m x hm
    dsimp only
    split
    · refine updateEntry_preserves (fun e => e.time_duration = none) _ _ ?_ rfl _
        (updateEntry_preserves (fun e => e.time_duration = none) _ _
          (fun e he => ?_) rfl m hm)
      · intro e he
        exact he
      · exact he
    · refine updateEntry_preserves (fun e => e.time_duration = none) _ _ ?_ rfl m hm
      intro e he
      exact he
  intro p hp
  exact absurd hp (List.not_mem_nil p)

theorem timewStep_lookup_other (timew : Str) (m : CorrMap) (x t : Str) (hne : t ≠ x) :
    lookupEntry ((fun m ticket =>
        let m1 := updateEntry m ticket (fun e => { e with time_tracked := true })
        match extractTimeDuration timew ticket with
        | some d => updateEntry m1 ticket (fun e => { e with time_duration := some d })
        | none => m1) m x) t = lookupEntry m t := by
  dsimp only
  cases hd : extractTimeDuration timew x with
  | some d =>
    rw [lookupEntry_updateEntry, if_neg hne, lookupEntry_updateEntry, if_neg hne]
  | none =>
    rw [lookupEntry_updateEntry, if_neg hne]

theorem timewStep_lookup_self (timew : Str) (m : CorrMap) (t : Str) :
    lookupEntry ((fun m ticket =>
        let m1 := updateEntry m ticket (fun e => { e with time_tracked := true })
        match extractTimeDuration timew ticket with
        | some d => updateEntry m1 ticket (fun e => { e with time_duration := some d })
        | none => m1) m t) t =
      some (match extractTimeDuration timew t with
        | some d => { (lookupEntry m t).getD defaultEntry with
                        time_tracked := true, time_duration := some d }
        | none => { (lookupEntry m t).getD defaultEntry with time_tracked := true }) := by
  dsimp only
  cases hd : extractTimeDuration timew t with
  | some d =>
    rw [lookupEntry_updateEntry, if_pos rfl, lookupEntry_updateEntry, if_pos rfl]
    rfl
  | none =>
    rw [lookupEntry_updateEntry, if_pos rfl]

theorem timewFold_lookup_skip (timew : Str) :
    ∀ (l : List Str) (t : Str), t ∉ l → ∀ (m : CorrMap),
      lookupEntry (l.foldl (fun m ticket =>
        let m1 := updateEntry m ticket (fun e => { e with time_tracked := true })
        match extractTimeDuration timew ticket with
        | some d => updateEntry m1 ticket (fun e => { e with time_duration := some d })
        | none => m1) m) t = lookupEntry m t := by
  intro l
  induction l with
  | nil => intro t _ m; rfl
  | cons x l ih =>
    intro t ht m
    rw [List.foldl_cons]
    have hne : t ≠ x := fun h => ht (h ▸ List.mem_cons_self x l)
    rw [ih t (fun h => ht (List.mem_cons_of_mem _ h)),
      timewStep_lookup_other timew m x t hne]

theorem timewFold_lookup (timew : Str) :
    ∀ (l : List Str), l.Nodup → ∀ (m : CorrMap) (t : Str), t ∈ l →
      lookupEntry (l.foldl (fun m ticket =>
        let m1 := updateEntry m ticket (fun e => { e with time_tracked := true })
        match extractTimeDuration timew ticket with
        | some d => updateEntry m1 ticket (fun e => { e with time_duration := some d })
        | none => m1) m) t =
      some (match extractTimeDuration timew t with
        | some d => { (lookupEntry m t).getD defaultEntry with
                        time_tracked := true, time_duration := some d }
        | none => { (lookupEntry m t).getD defaultEntry with time_tracked := true }) := by
  intro l
  induction l with
  | nil => intro _ m t ht; exact absurd ht (List.not_mem_nil t)
  | cons x l ih =>
    intro hnd m t ht
    rw [List.foldl_cons]
    rcases List.mem_cons.mp ht with rfl | ht
    · rw [timewFold_lookup_skip timew l t (List.nodup_cons.mp hnd).1]
      exact timewStep_lookup_self timew m t
    · have hne : t ≠ x := fun h => (List.nodup_cons.mp hnd).1 (h ▸ ht)
      rw [ih (List.nodup_cons.mp hnd).2 _ t ht,
        timewStep_lookup_other timew m x t hne]

/-- **C7** (amended): for every identifier the Extractor finds in the
time-tracking text, the correlated entry exists with `time_tracked = true`
and its `time_duration` equals exactly what `_extract_time_duration`
returns — the first clock token (`H:MM:SS` or `H:MM`) on or adjacent to a
line containing the canonicalized identifier as a CASE-SENSITIVE substring;
when no line passes that case-sensitive test, or no token is near a passing
line, the duration stays absent even if a token sits next to a
differently-cased mention. -/
theorem C7_time_duration (notes : Str) (j : List JiraTicket) (git timew : Str)
    (t : Str) (ht : t ∈ extractTicketIds timew) :
    ∃ e, lookupEntry (correlateTicketData notes j git timew) t = some e ∧
      e.time_tracked = true ∧
      e.time_duration = extractTimeDuration timew t := by
  rw [correlateTicketData, applyTimew]
  rw [timewFold_lookup timew (extractTicketIds timew) (extractTicketIds_nodup timew)
    (applyGit git (applyJira j (applyNotes notes []))) t ht]
  have htd : ((lookupEntry (applyGit git (applyJira j (applyNotes notes []))) t).getD
      defaultEntry).time_duration = none := by
    cases hl : lookupEntry (applyGit git (applyJira j (applyNotes notes []))) t with
    | none => rfl
    | some e => exact td_none_pre notes j git (t, e) (lookup_some_mem hl)
  cases hd : extractTimeDuration timew t with
  | some d => exact ⟨_, rfl, rfl, rfl⟩
  | none => exact ⟨_, rfl, rfl, htd⟩

/-- Witness for **C7** at time-tracking text `"INFRA-1 0:30"` and the
identifier `INFRA-1` the Extractor finds in it. -/
theorem C7_witness :
    ∃ e, lookupEntry (correlateTicketData [] [] [] (String.toList "INFRA-1 0:30"))
        (String.toList "INFRA-1") = some e ∧
      e.time_tracked = true ∧
      e.time_duration =
        extractTimeDuration (String.toList "INFRA-1 0:30") (String.toList "INFRA-1") :=
  C7_time_duration [] [] [] (String.toList "INFRA-1 0:30") (String.toList "INFRA-1")
    (by decide)


/-! ### C10: mentioned-only entries originate from tracker records -/

theorem caseTable_snd_not_key :
    ∀ q ∈ caseTable, caseTable.find? (fun p => p.1 == q.2) = none := by decide

theorem asciiUpper_idem (c : Char) : asciiUpper (asciiUpper c) = asciiUpper c := by
  cases hf : caseTable.find? (fun p => p.1 == c) with
  | none =>
    have h1 : asciiUpper c = c := by rw [asciiUpper, hf]
    rw [h1, h1]
  | some q =>
    have h1 : asciiUpper c = q.2 := by rw [asciiUpper, hf]
    have hq : q ∈ caseTable := List.mem_of_find?_eq_some hf
    have h2 : asciiUpper q.2 = q.2 := by rw [asciiUpper, caseTable_snd_not_key q hq]
    rw [h1, h2]

theorem map_asciiUpper_idem (s : Str) :
    (s.map asciiUpper).map asciiUpper = s.map asciiUpper := by
  rw [List.map_map]
  exact List.map_congr_left (fun c _ => asciiUpper_idem c)

theorem shapedP1_chars {m : Str} (h : shapedP1 m) :
    ∀ c ∈ m, wordCh c = true ∨ c = '-' := by
  rcases h with ⟨ls, ds, rfl, _, hlet, _, hdig⟩
  intro c hc
  rcases List.mem_append.mp hc with hc | hc
  · exact Or.inl (wordCh_of_letter (hlet c hc))
  · rcases List.mem_cons.mp hc with rfl | hc
    · exact Or.inr rfl
    · exact Or.inl (wordCh_of_digit (hdig c hc))

theorem shapedP2_chars {m : Str} (h : shapedP2 m) :
    ∀ c ∈ m, wordCh c = true ∨ c = '-' := by
  rcases h with ⟨ls, ds, rfl, _, hlet, _, hdig⟩
  intro c hc
  rcases List.mem_append.mp hc with hc | hc
  · exact Or.inl (wordCh_of_letter (hlet c hc))
  · exact Or.inl (wordCh_of_digit (hdig c hc))

theorem not_space_of_wordCh {c : Char} (h : wordCh c = true) : isPySpace c = false := by
  cases hs : isPySpace c
  · rfl
  · exfalso
    simp only [isPySpace, Bool.or_eq_true, beq_iff_eq] at hs
    rcases hs with ((((rfl | rfl) | rfl) | rfl) | rfl) | rfl
    all_goals exact absurd h (by decide)

theorem mem_findAllP1_infix :
    ∀ (n : Nat) (xs : Str), xs.length ≤ n → ∀ (pw : Bool) (tok : Str),
      tok ∈ findAllP1 pw xs → shapedP1 tok ∧ tok <:+: xs := by
  intro n
  induction n with
  | zero =>
    intro xs hlen pw tok htok
    rw [Nat.le_zero, List.length_eq_zero] at hlen
    subst hlen
    rw [findAllP1] at htok
    exact absurd htok (List.not_mem_nil tok)
  | succ n ih =>
    intro xs hlen pw tok htok
    rcases xs with _ | ⟨c, rest⟩
    · rw [findAllP1] at htok
      exact absurd htok (List.not_mem_nil tok)
    · cases hm : matchP1 pw (c :: rest) with
      | some mr =>
        obtain ⟨m, r⟩ := mr
        rw [findAllP1_cons_some hm] at htok
        rcases matchP1_some_spec hm with ⟨-, hxs, hsh, -⟩
        rcases List.mem_cons.mp htok with rfl | htok
        · exact ⟨hsh, List.IsPrefix.isInfix ⟨r, hxs.symm⟩⟩
        · have hr : r.length ≤ n := by
            have := matchP1_some_length hm
            simp only [List.length_cons] at this hlen
            omega
          obtain ⟨hsh2, hinf⟩ := ih r hr true tok htok
          exact ⟨hsh2, hinf.trans (List.IsSuffix.isInfix ⟨m, hxs.symm⟩)⟩
      | none =>
        rw [findAllP1_cons_none hm] at htok
        have hr : rest.length ≤ n := by
          simp only [List.length_cons] at hlen
          omega
        obtain ⟨hsh2, hinf⟩ := ih rest hr (wordCh c) tok htok
        exact ⟨hsh2, hinf.trans (List.IsSuffix.isInfix (List.suffix_cons c rest))⟩

theorem mem_findAllP2_infix :
    ∀ (n : Nat) (xs : Str), xs.length ≤ n → ∀ (pw : Bool) (tok : Str),
      tok ∈ findAllP2 pw xs → shapedP2 tok ∧ tok <:+: xs := by
  intro n
  induction n with
  | zero =>
    intro xs hlen pw tok htok
    rw [Nat.le_zero, List.length_eq_zero] at hlen
    subst hlen
    rw [findAllP2] at htok
    exact absurd htok (List.not_mem_nil tok)
  | succ n ih =>
    intro xs hlen pw tok htok
    rcases xs with _ | ⟨c, rest⟩
    · rw [findAllP2] at htok
      exact absurd htok (List.not_mem_nil tok)
    · cases hm : matchP2 pw (c :: rest) with
      | some mr =>
        obtain ⟨m, r⟩ := mr
        rw [findAllP2_cons_some hm] at htok
        rcases matchP2_some_spec hm with ⟨-, hxs, hsh, -⟩
        rcases List.mem_cons.mp htok with rfl | htok
        · exact ⟨hsh, List.IsPrefix.isInfix ⟨r, hxs.symm⟩⟩
        · have hr : r.length ≤ n := by
            have := matchP2_some_length hm
            simp only [List.length_cons] at this hlen
            omega
          obtain ⟨hsh2, hinf⟩ := ih r hr true tok htok
          exact ⟨hsh2, hinf.trans (List.IsSuffix.isInfix ⟨m, hxs.symm⟩)⟩
      | none =>
        rw [findAllP2_cons_none hm] at htok
        have hr : rest.length ≤ n := by
          simp only [List.length_cons] at hlen
          omega
        obtain ⟨hsh2, hinf⟩ := ih rest hr (wordCh c) tok htok
        exact ⟨hsh2, hinf.trans (List.IsSuffix.isInfix (List.suffix_cons c rest))⟩

/-- Every extracted identifier is the uppercasing of a token of word
characters and hyphens occurring inside the scanned text. -/
theorem exists_token_of_extract {text t : Str} (ht : t ∈ extractTicketIds text) :
    ∃ tok, t = tok.map asciiUpper ∧ tok ≠ [] ∧ tok <:+: text ∧
      ∀ c ∈ tok, wordCh c = true ∨ c = '-' := by
  rw [extractTicketIds] at ht
  rcases (mem_foldl_insertUnique _ _ _).mp ht with h0 | hm
  · exact absurd h0 (List.not_mem_nil t)
  rcases List.mem_append.mp hm with hm | hm
  · obtain ⟨tok, htok, htk⟩ := List.mem_map.mp hm
    obtain ⟨hsh, hinf⟩ := mem_findAllP1_infix text.length text le_rfl false tok htok
    exact ⟨tok, htk.symm, shapedP1_ne_nil hsh, hinf, shapedP1_chars hsh⟩
  · obtain ⟨tok, htok, htk⟩ := List.mem_map.mp hm
    obtain ⟨hsh, hinf⟩ := mem_findAllP2_infix text.length text le_rfl false tok htok
    exact ⟨tok, htk.symm, shapedP2_ne_nil hsh, hinf, shapedP2_chars hsh⟩

theorem prefix_splitNl_head :
    ∀ (xs s : Str), s <+: xs → '\n' ∉ s →
      ∀ l0 ls, splitNl xs = l0 :: ls → s <+: l0 := by
  intro xs
  induction xs with
  | nil =>
    intro s hp _ l0 ls _
    rw [List.prefix_nil] at hp
    subst hp
    exact List.nil_prefix
  | cons c rest ih =>
    intro s hp hnl l0 ls hsp
    rcases s with _ | ⟨c0, s'⟩
    · exact List.nil_prefix
    · obtain ⟨rfl, hp'⟩ := List.cons_prefix_cons.mp hp
      have hc : ¬(c0 = '\n') := fun h => hnl (List.mem_cons.mpr (Or.inl h.symm))
      rw [splitNl, if_neg hc] at hsp
      rcases hrest : splitNl rest with _ | ⟨m0, ms⟩
      · exact absurd hrest (splitNl_ne_nil rest)
      · rw [hrest] at hsp
        dsimp only at hsp
        injection hsp with h1 h2
        subst h1
        exact List.cons_prefix_cons.mpr
          ⟨rfl, ih s' hp' (fun h => hnl (List.mem_cons_of_mem _ h)) m0 ms hrest⟩

/-- A non-newline infix of a text lies entirely inside one of its lines. -/
theorem infix_splitNl :
    ∀ (xs s : Str), s <:+: xs → '\n' ∉ s →
      ∃ l, l ∈ splitNl xs ∧ s <:+: l := by
  intro xs
  induction xs with
  | nil =>
    intro s hinf _
    rw [List.infix_nil] at hinf
    subst hinf
    exact ⟨[], by simp [splitNl], List.nil_infix⟩
  | cons c rest ih =>
    intro s hinf hnl
    by_cases hc : c = '\n'
    · subst hc
      rw [splitNl, if_pos rfl]
      rcases List.infix_cons_iff.mp hinf with hpre | hinf'
      · rcases s with _ | ⟨c0, s'⟩
        · exact ⟨[], List.mem_cons_self _ _, List.nil_infix⟩
        · obtain ⟨rfl, -⟩ := List.cons_prefix_cons.mp hpre
          exact absurd (List.mem_cons_self _ _) hnl
      · obtain ⟨l, hl, hs⟩ := ih s hinf' hnl
        exact ⟨l, List.mem_cons_of_mem _ hl, hs⟩
    · rcases hrest : splitNl rest with _ | ⟨m0, ms⟩
      · exact absurd hrest (splitNl_ne_nil rest)
      · have hsp : splitNl (c :: rest) = (c :: m0) :: ms := by
          rw [splitNl, if_neg hc, hrest]
        rw [hsp]
        rcases List.infix_cons_iff.mp hinf with hpre | hinf'
        · exact ⟨c :: m0, List.mem_cons_self _ _, List.IsPrefix.isInfix
            (prefix_splitNl_head (c :: rest) s hpre hnl (c :: m0) ms hsp)⟩
        · obtain ⟨l, hl, hs⟩ := ih s hinf' hnl
          rw [hrest] at hl
          rcases List.mem_cons.mp hl with rfl | hl
          · exact ⟨c :: l, List.mem_cons_self _ _, List.infix_cons hs⟩
          · exact ⟨l, List.mem_cons_of_mem _ hl, hs⟩

theorem pyStrip_ne_nil {l : Str} {c : Char} (hc : c ∈ l) (hns : isPySpace c = false) :
    pyStrip l ≠ [] := by
  intro h
  rw [pyStrip, trimRight, trimLeft, List.reverse_eq_nil_iff,
    List.dropWhile_eq_nil_iff] at h
  have hcl : c ∈ l.takeWhile isPySpace ++ l.dropWhile isPySpace := by
    rw [List.takeWhile_append_dropWhile]
    exact hc
  have hcd : c ∈ l.dropWhile isPySpace := by
    rcases List.mem_append.mp hcl with hct | hcd
    · exact absurd (List.mem_takeWhile_imp hct) (by simp [hns])
    · exact hcd
  exact absurd (h c (List.mem_reverse.mpr hcd)) (by simp [hns])

theorem gitFold_ne_nil (tok : Str) :
    ∀ (lines : List Str) (acc : List Str),
      (acc ≠ [] ∨ ∃ l ∈ lines,
        containsSub (tok.map asciiUpper) (l.map asciiUpper) = true ∧ pyStrip l ≠ []) →
      lines.foldl (fun commits line =>
        if containsSub (tok.map asciiUpper) (line.map asciiUpper) then
          let commit := pyStrip line
          if commit ≠ [] ∧ commit ∉ commits then commits ++ [commit] else commits
        else commits) acc ≠ [] := by
  intro lines
  induction lines with
  | nil =>
    intro acc h
    rcases h with h | ⟨l, hl, -⟩
    · exact h
    · exact absurd hl (List.not_mem_nil l)
  | cons x lines ih =>
    intro acc h
    rw [List.foldl_cons]
    apply ih
    rcases h with h | ⟨l, hl, hcs, hst⟩
    · left
      dsimp only
      split
      · split
        · simp
        · exact h
      · exact h
    · rcases List.mem_cons.mp hl with rfl | hl
      · left
        dsimp only
        rw [if_pos hcs]
        by_cases h2 : pyStrip l ≠ [] ∧ pyStrip l ∉ acc
        · rw [if_pos h2]
          simp
        · rw [if_neg h2]
          push_neg at h2
          exact List.ne_nil_of_mem (h2 hst)
      · right
        exact ⟨l, hl, hcs, hst⟩

/-- Every identifier the Extractor finds in the commit log receives at least
one commit line from `_extract_git_commits_for_ticket`. -/
theorem extractGitCommits_ne_nil {git t : Str} (ht : t ∈ extractTicketIds git) :
    extractGitCommitsForTicket git t ≠ [] := by
  obtain ⟨tok, rfl, hne, hinf, hchars⟩ := exists_token_of_extract ht
  have hnl : '\n' ∉ tok := by
    intro hmem
    rcases hchars _ hmem with hw | hh
    · exact absurd hw (by decide)
    · exact absurd hh (by decide)
  obtain ⟨l, hl, hsl⟩ := infix_splitNl git tok hinf hnl
  rw [extractGitCommitsForTicket]
  apply gitFold_ne_nil
  right
  refine ⟨l, hl, ?_, ?_⟩
  · rw [map_asciiUpper_idem]
    exact containsSub_iff.mpr (List.IsInfix.map _ hsl)
  · rcases htok : tok with _ | ⟨c0, tok'⟩
    · exact absurd htok hne
    · have hc0 : c0 ∈ tok := htok ▸ List.mem_cons_self _ _
      have hspace : isPySpace c0 = false := by
        rcases hchars c0 hc0 with hw | hh
        · exact not_space_of_wordCh hw
        · rw [hh]
          decide
      exact pyStrip_ne_nil (hsl.subset (htok ▸ hc0)) hspace

/-- Decomposing membership in `updateEntry`: an element either predates the
update, or is the updated/inserted pair at the touched key. -/
theorem mem_updateEntry_strong {m : CorrMap} {k : Str} {f : Entry → Entry}
    {p : Str × Entry} (hp : p ∈ updateEntry m k f) :
    p ∈ m ∨ ∃ e0, p = (k, f e0) ∧
      ((k, e0) ∈ m ∨ (e0 = defaultEntry ∧ k ∉ keysOf m)) := by
  induction m with
  | nil =>
    rw [updateEntry] at hp
    rcases List.mem_singleton.mp hp with rfl
    exact Or.inr ⟨defaultEntry, rfl, Or.inr ⟨rfl, by simp [keysOf]⟩⟩
  | cons q rest ih =>
    obtain ⟨k2, e⟩ := q
    rw [updateEntry] at hp
    by_cases hk : k2 = k
    · rw [if_pos hk] at hp
      subst hk
      rcases List.mem_cons.mp hp with rfl | hp
      · exact Or.inr ⟨e, rfl, Or.inl (List.mem_cons_self _ _)⟩
      · exact Or.inl (List.mem_cons_of_mem _ hp)
    · rw [if_neg hk] at hp
      rcases List.mem_cons.mp hp with rfl | hp
      · exact Or.inl (List.mem_cons_self _ _)
      · rcases ih hp with hin | ⟨e0, hpe, hrest⟩
        · exact Or.inl (List.mem_cons_of_mem _ hin)
        · refine Or.inr ⟨e0, hpe, ?_⟩
          rcases hrest with hmem | ⟨hde, hnk⟩
          · exact Or.inl (List.mem_cons_of_mem _ hmem)
          · refine Or.inr ⟨hde, ?_⟩
            simp only [keysOf, List.map_cons, List.mem_cons]
            rintro (h1 | h1)
            · exact hk h1.symm
            · exact hnk h1

theorem foldl_preserves_mem {α : Type} (step : CorrMap → α → CorrMap)
    (P : CorrMap → Prop) :
    ∀ (l : List α), (∀ m x, x ∈ l → P m → P (step m x)) →
      ∀ m, P m → P (l.foldl step m) := by
  intro l
  induction l with
  | nil => intro _ m hm; exact hm
  | cons x l ih =>
    intro hstep m hm
    rw [List.foldl_cons]
    exact ih (fun m2 y hy => hstep m2 y (List.mem_cons_of_mem _ hy)) _
      (hstep m x (List.mem_cons_self _ _) hm)

/-- After the notes phase, every entry is flagged as mentioned in notes. -/
theorem applyNotes_mentioned (notes : Str) :
    ∀ p, p ∈ applyNotes notes [] → p.2.mentioned_in_notes = true := by
  rw [applyNotes]
  apply foldl_preserves _ (fun m => ∀ p, p ∈ m → p.2.mentioned_in_notes = true)
  · intro m x hm p hp
    dsimp only at hp
    split at hp
    · rcases mem_updateEntry_strong hp with hp1 | ⟨e0, rfl, he0⟩
      · rcases mem_updateEntry_strong hp1 with hp2 | ⟨e1, rfl, -⟩
        · exact hm p hp2
        · rfl
      · rcases he0 with hmem | ⟨rfl, hnk⟩
        · rcases mem_updateEntry_strong hmem with hp2 | ⟨e1, he1, -⟩
          · exact hm (x, e0) hp2
          · have he : e0 = { e1 with mentioned_in_notes := true } :=
              congrArg Prod.snd he1
            subst he
            rfl
        · exact absurd ((mem_keys_updateEntry m x _ x).mpr (Or.inr rfl)) hnk
    · rcases mem_updateEntry_strong hp with hp2 | ⟨e1, rfl, -⟩
      · exact hm p hp2
      · rfl
  · intro p hp
    exact absurd hp (List.not_mem_nil p)

/-- **C10**: every correlated entry that is mentioned-only — no commits, not
time-tracked, not mentioned in notes — was created from a supplied tracker
record, whose key it carries; entries created from identifiers extracted
from notes, the commit log or the time-tracking text are always active. -/
theorem C10_mentioned_only_origin (notes : Str) (j : List JiraTicket) (git timew : Str) :
    ∀ p, p ∈ correlateTicketData notes j git timew →
      p.2.git_commits = [] → p.2.time_tracked = false →
      p.2.mentioned_in_notes = false →
      ∃ r, r ∈ j ∧ r.key = p.1 := by
  have h2 : ∀ p, p ∈ applyJira j (applyNotes notes []) →
      p.2.git_commits = [] → p.2.time_tracked = false →
      p.2.mentioned_in_notes = false → ∃ r, r ∈ j ∧ r.key = p.1 := by
    rw [applyJira]
    apply foldl_preserves_mem _ (fun m => ∀ p, p ∈ m →
      p.2.git_commits = [] → p.2.time_tracked = false →
      p.2.mentioned_in_notes = false → ∃ r, r ∈ j ∧ r.key = p.1) j
    · intro m x hx hm p hp
      split at hp
      · rcases mem_updateEntry_strong hp with hp2 | ⟨e0, rfl, -⟩
        · exact hm p hp2
        · intro _ _ _
          exact ⟨x, hx, rfl⟩
      · exact hm p hp
    · intro p hp _ _ hmn
      exact absurd (applyNotes_mentioned notes p hp) (by simp [hmn])
  have h3 : ∀ p, p ∈ applyGit git (applyJira j (applyNotes notes [])) →
      p.2.git_commits = [] → p.2.time_tracked = false →
      p.2.mentioned_in_notes = false → ∃ r, r ∈ j ∧ r.key = p.1 := by
    rw [applyGit]
    apply foldl_preserves_mem _ (fun m => ∀ p, p ∈ m →
      p.2.git_commits = [] → p.2.time_tracked = false →
      p.2.mentioned_in_notes = false → ∃ r, r ∈ j ∧ r.key = p.1)
      (extractTicketIds git)
    · intro m t htg hm p hp
      dsimp only at hp
      rcases mem_updateEntry_strong hp with hp2 | ⟨e0, rfl, -⟩
      · exact hm p hp2
      · intro hgc
        exact absurd (List.append_eq_nil.mp hgc).2 (extractGitCommits_ne_nil htg)
    · exact h2
  rw [correlateTicketData, applyTimew]
  apply foldl_preserves _ (fun m => ∀ p, p ∈ m →
    p.2.git_commits = [] → p.2.time_tracked = false →
    p.2.mentioned_in_notes = false → ∃ r, r ∈ j ∧ r.key = p.1)
  · intro m t hm p hp
    dsimp only at hp
    cases hd : extractTimeDuration timew t
    all_goals rw [hd] at hp
    all_goals dsimp only at hp
    · rcases mem_updateEntry_strong hp with hp2 | ⟨e1, rfl, -⟩
      · exact hm p hp2
      · intro _ htt
        simp at htt
    · rcases mem_updateEntry_strong hp with hp1 | ⟨e0, rfl, he0⟩
      · rcases mem_updateEntry_strong hp1 with hp2 | ⟨e1, rfl, -⟩
        · exact hm p hp2
        · intro _ htt
          simp at htt
      · rcases he0 with hmem | ⟨rfl, hnk⟩
        · rcases mem_updateEntry_strong hmem with hp2 | ⟨e1, he1, -⟩
          · intro hgc htt hmn
            exact hm (t, e0) hp2 hgc htt hmn
          · have he : e0 = { e1 with time_tracked := true } := congrArg Prod.snd he1
            intro _ htt
            rw [he] at htt
            simp at htt
        · exact absurd ((mem_keys_updateEntry m t _ t).mpr (Or.inr rfl)) hnk
  · exact h3

/-- Witness for **C10**: a tracker record with key `ABC-1` and no other data
sources yields an inactive entry whose key is exactly the tracker key. -/
theorem C10_witness :
    (String.toList "ABC-1", defaultEntry) ∈
        correlateTicketData [] [⟨String.toList "ABC-1", ⟨none, none⟩⟩] [] [] ∧
    ∃ r, r ∈ [(⟨String.toList "ABC-1", ⟨none, none⟩⟩ : JiraTicket)] ∧
      r.key = (String.toList "ABC-1", defaultEntry).1 :=
  ⟨by decide,
    C10_mentioned_only_origin [] [⟨String.toList "ABC-1", ⟨none, none⟩⟩] [] []
      (String.toList "ABC-1", defaultEntry) (by decide) (by decide) (by decide)
      (by decide)⟩


/-! ### C9: collaborator unavailability -/

/-- An aggregation run in which every collaborator is unavailable: no note
files, a tracker client that raises, no git directories, a failing
time-tracking subprocess, no GitHub client. -/
def c9Env : AggEnv :=
  { today := ⟨2024, 1, 2⟩,
    notesFs := fun _ => none,
    jira := some (.error (String.toList "boom")),
    formatTickets := fun _ => [],
    gitAuthor := String.toList "a",
    gitDirs := [],
    timew := .error (),
    githubUsername := [],
    github := none }

set_option maxRecDepth 10000 in
/-- Counterexample to **C9** as stated: with every collaborator unavailable,
the flat document contains no marker at all for the missing notes section
(it is exactly the three other sections), and the structured document marks
neither the git, the time-tracking, nor the raising tracker section —
`GIT ACTIVITY:`, `TIME TRACKING:` and any mention of the tracker or its
error are all absent rather than replaced by placeholders. -/
theorem C9_counterexample :
    aggregateAllData c9Env = String.toList
      "Error fetching Jira tickets: boom\nNo Git directories configured.\nNo timewarrior summary available.\n" ∧
    containsSub (String.toList "otes") (aggregateAllData c9Env) = false ∧
    containsSub (String.toList "GIT ACTIVITY") (aggregateAllDataStructured c9Env) = false ∧
    containsSub (String.toList "TIME TRACKING") (aggregateAllDataStructured c9Env) = false ∧
    containsSub (String.toList "Jira") (aggregateAllDataStructured c9Env) = false ∧
    containsSub (String.toList "boom") (aggregateAllDataStructured c9Env) = false := by
  decide

theorem structureForAI_headers (c : CorrMap) (n : Str) (d : PyDate × PyDate) :
    containsSub (String.toList "=== TIMEFRAME ===") (structureForAI c n d) = true ∧
    containsSub (String.toList "=== WORK NOTES ===") (structureForAI c n d) = true := by
  constructor
  · rw [structureForAI]
    exact containsSub_iff.mpr (infix_joinNl_of_mem
      (List.mem_append_left _ (List.mem_append_left _ (List.mem_append_left _
        (List.mem_append_left _ (List.mem_append_left _ (List.mem_append_left _
          (List.mem_cons_self _ _))))))))
  · rw [structureForAI]
    exact containsSub_iff.mpr (infix_joinNl_of_mem
      (List.mem_append_left _ (List.mem_append_right _ (List.mem_cons_self _ _))))

/-- **C9** (amended): both aggregation entry points always return a document.
In flat mode an absent tracker client, empty git-directory list or failing
time-tracking subprocess each yield their fixed placeholder sentence in the
output, but absent notes contribute nothing — the document is then exactly
the remaining sections, with no notes marker.  In structured mode the
document always carries the `=== TIMEFRAME ===`, `=== WORK NOTES ===` and
`=== ADDITIONAL DATA ===` headers, while unavailable git or time-tracking
data is omitted from the additional-data section rather than marked. -/
theorem C9_availability (env : AggEnv) :
    (env.jira = none →
      containsSub (String.toList "Jira client not configured.")
        (aggregateAllData env) = true) ∧
    (env.gitDirs = [] →
      containsSub (String.toList "No Git directories configured.")
        (aggregateAllData env) = true) ∧
    (env.timew = Except.error () →
      containsSub (String.toList "No timewarrior summary available.")
        (aggregateAllData env) = true) ∧
    (getNotesContent env.today env.notesFs = [] →
      aggregateAllData env =
        (getJiraTickets env.jira env.formatTickets ++ ['\n']) ++
        (getGitHistory env.gitAuthor env.gitDirs ++ ['\n']) ++
        (getTimewarriorSummary env.timew ++ ['\n']) ++
        (if env.githubUsername ≠ [] ∧ env.github.isSome then
           getGithubEvents env.github ++ ['\n']
         else [])) ∧
    containsSub (String.toList "=== TIMEFRAME ===")
      (aggregateAllDataStructured env) = true ∧
    containsSub (String.toList "=== WORK NOTES ===")
      (aggregateAllDataStructured env) = true ∧
    containsSub (String.toList "=== ADDITIONAL DATA ===")
      (aggregateAllDataStructured env) = true := by
  refine ⟨?_, ?_, ?_, ?_, ?_, ?_, ?_⟩
  · intro hj
    have hJ : getJiraTickets env.jira env.formatTickets =
        String.toList "Jira client not configured." := by rw [hj]; rfl
    rw [aggregateAllData, hJ]
    exact containsSub_append_left _ (containsSub_append_left _
      (containsSub_append_left _ (containsSub_append_right _
        (containsSub_append_left _ (containsSub_self _)))))
  · intro hg
    have hG : getGitHistory env.gitAuthor env.gitDirs =
        String.toList "No Git directories configured." := by rw [hg]; rfl
    rw [aggregateAllData, hG]
    exact containsSub_append_left _ (containsSub_append_left _
      (containsSub_append_right _ (containsSub_append_left _ (containsSub_self _))))
  · intro ht
    have hT : getTimewarriorSummary env.timew =
        String.toList "No timewarrior summary available." := by rw [ht]; rfl
    rw [aggregateAllData, hT]
    exact containsSub_append_left _ (containsSub_append_right _
      (containsSub_append_left _ (containsSub_self _)))
  · intro hn
    rw [aggregateAllData, if_neg (by rw [hn]; simp), List.nil_append]
  · rw [aggregateAllDataStructured]
    exact containsSub_append_left _ (containsSub_append_left _
      (containsSub_append_left _ ((structureForAI_headers _ _ _).1)))
  · rw [aggregateAllDataStructured]
    exact containsSub_append_left _ (containsSub_append_left _
      (containsSub_append_left _ ((structureForAI_headers _ _ _).2)))
  · rw [aggregateAllDataStructured]
    exact containsSub_append_left _ (containsSub_append_left _
      (containsSub_append_right _ (by decide)))

/-- A run with no collaborator available at all and a tracker client that is
absent rather than raising. -/
def c9DownEnv : AggEnv :=
  { today := ⟨2024, 1, 2⟩,
    notesFs := fun _ => none,
    jira := none,
    formatTickets := fun _ => [],
    gitAuthor := String.toList "a",
    gitDirs := [],
    timew := .error (),
    githubUsername := [],
    github := none }

/-- Witness for **C9** on the fully-unavailable run `c9DownEnv`. -/
theorem C9_witness :
    containsSub (String.toList "Jira client not configured.")
      (aggregateAllData c9DownEnv) = true ∧
    containsSub (String.toList "No Git directories configured.")
      (aggregateAllData c9DownEnv) = true ∧
    containsSub (String.toList "No timewarrior summary available.")
      (aggregateAllData c9DownEnv) = true ∧
    aggregateAllData c9DownEnv =
      (getJiraTickets c9DownEnv.jira c9DownEnv.formatTickets ++ ['\n']) ++
      (getGitHistory c9DownEnv.gitAuthor c9DownEnv.gitDirs ++ ['\n']) ++
      (getTimewarriorSummary c9DownEnv.timew ++ ['\n']) ++
      (if c9DownEnv.githubUsername ≠ [] ∧ c9DownEnv.github.isSome then
         getGithubEvents c9DownEnv.github ++ ['\n']
       else []) ∧
    containsSub (String.toList "=== TIMEFRAME ===")
      (aggregateAllDataStructured c9DownEnv) = true ∧
    containsSub (String.toList "=== WORK NOTES ===")
      (aggregateAllDataStructured c9DownEnv) = true ∧
    containsSub (String.toList "=== ADDITIONAL DATA ===")
      (aggregateAllDataStructured c9DownEnv) = true :=
  ⟨(C9_availability c9DownEnv).1 rfl,
   (C9_availability c9DownEnv).2.1 rfl,
   (C9_availability c9DownEnv).2.2.1 rfl,
   (C9_availability c9DownEnv).2.2.2.1 rfl,
   (C9_availability c9DownEnv).2.2.2.2.1,
   (C9_availability c9DownEnv).2.2.2.2.2.1,
   (C9_availability c9DownEnv).2.2.2.2.2.2⟩

end Standup
